import Mathlib

/-!
# RITA storage core: document merge, bulk writer, store gateway, chunk remover

A shallow embedding of `database/db.go` (`MergeBSONMaps`, `CollectionExists`,
`AggregateCollection`), of `database/writer.go` (`BulkChange.Size`,
`BulkChange.Apply`, the worker loop of `MgoBulkWriter.Start`), of the worker of
`pkg/remover/writer.go` (`startCIDRemover`), of the start-up loop of the
domain `Upsert` functions, of the hostname worker (`mainQuery`, `blQuery`,
`analyzer.start`), of the beacon summarizers (`maxBeaconUpdate`,
`maxProxyBeaconUpdate`) and of `linkInputMaps` of `pkg/sniconn`, with the
properties the specification states about them.

Modelling conventions.

* A Go `bson.M` is a map; it is represented by an association list whose
  order is the order in which `range` happens to visit the keys.  A real Go
  map never holds a key twice, which is the predicate `Doc.WF`.
* A Go `panic` is the error `MergeError.conflict`; it propagates out of the
  recursive call exactly as a panic unwinds the stack.
* Go `int` counters are unbounded integers: they count in-memory changes and
  bytes, far below `2^63`.
* A Go `error` is its message.  What the MongoDB server answers is a parameter
  of the code that calls it.
-/

namespace Rita

/-! ## BSON values -/

/-- Dynamic values stored under the keys of a `bson.M`.  The two constructors
`doc` and `docs` are the dynamic types `bson.M` and `[]bson.M` that the type
assertions of `MergeBSONMaps` recognise; every other constructor is a value
on which both assertions fail. -/
inductive Value where
  | null
  | bool (b : Bool)
  | int (i : Int)
  | str (s : String)
  | strs (l : List String)
  | doc (m : List (String × Value))
  | docs (l : List (List (String × Value)))
  deriving Repr, Inhabited

/-- A `bson.M`: keys with their values, in iteration order. -/
abbrev Doc := List (String × Value)

/-- The key list of a document. -/
def Doc.keys (m : Doc) : List String := m.map Prod.fst

/-- Well-formedness of a Go map: no key occurs twice. -/
def Doc.WF (m : Doc) : Prop := m.keys.Nodup

instance (m : Doc) : Decidable m.WF := by unfold Doc.WF; infer_instance

/-- The map read `v, ok := m[k]`: `none` when the key is absent. -/
def Doc.get : Doc → String → Option Value
  | [], _ => none
  | (k', v) :: rest, k => if k' = k then some v else Doc.get rest k

/-- The map write `m[k] = v`: replaces the value of an existing key, adds the
key otherwise. -/
def Doc.set : Doc → String → Value → Doc
  | [], k, v => [(k, v)]
  | (k', v') :: rest, k, v => if k' = k then (k', v) :: rest else (k', v') :: Doc.set rest k v

/-- Outcome of a merge that does not return a document. -/
inductive MergeError where
  /-- The `panic` of `MergeBSONMaps`, with the key and the two values of its message. -/
  | conflict (key : String) (v1 v2 : Value)
  /-- The recursion budget of the embedding ran out (never produced by `MergeBSONMaps`,
  see `MergeBSONMaps_ne_outOfFuel`). -/
  | outOfFuel
  deriving Repr

/-- Body of the inner loop of `MergeBSONMaps` for one `keyToMerge, valueToMerge`;
`recur` is the recursive call `MergeBSONMaps(currValMap, mapToMerge)`. -/
def mergeKey (recur : List Doc → Except MergeError Doc) (result : Doc) (kv : String × Value) :
    Except MergeError Doc :=
  match result.get kv.1 with
  | none => .ok (result.set kv.1 kv.2)
  | some currVal =>
    match currVal, kv.2 with
    | .doc currValMap, .doc mapToMerge =>
      match recur [currValMap, mapToMerge] with
      | .ok merged => .ok (result.set kv.1 (.doc merged))
      | .error e => .error e
    | .docs currValMapSlice, .docs mapSliceToMerge =>
      .ok (result.set kv.1 (.docs (currValMapSlice ++ mapSliceToMerge)))
    | v1, v2 => .error (.conflict kv.1 v1 v2)

/-- The inner loop `for keyToMerge, valueToMerge := range mapToMerge`. -/
def mergeMap (recur : List Doc → Except MergeError Doc) : Doc → Doc → Except MergeError Doc
  | result, [] => .ok result
  | result, kv :: rest =>
    match mergeKey recur result kv with
    | .ok result' => mergeMap recur result' rest
    | .error e => .error e

/-- The outer loop `for _, mapToMerge := range maps`. -/
def mergeMaps (recur : List Doc → Except MergeError Doc) : Doc → List Doc → Except MergeError Doc
  | result, [] => .ok result
  | result, m :: rest =>
    match mergeMap recur result m with
    | .ok result' => mergeMaps recur result' rest
    | .error e => .error e

/-- The function `MergeBSONMaps` with a bound on the depth of its recursion: both
loops start from `result := bson.M{}`, a recursive call uses one unit of the bound. -/
def mergeFuel : Nat → List Doc → Except MergeError Doc
  | 0, maps => mergeMaps (fun _ => .error .outOfFuel) [] maps
  | n + 1, maps => mergeMaps (mergeFuel n) [] maps

mutual
/-- Number of `bson.M` levels nested inside a value. -/
def Value.nesting : Value → Nat
  | .doc m => nestingDoc m + 1
  | _ => 0
/-- Largest `Value.nesting` among the values of a document. -/
def nestingDoc : List (String × Value) → Nat
  | [] => 0
  | (_, v) :: rest => max v.nesting (nestingDoc rest)
end

/-- Largest `nestingDoc` among the documents of a list. -/
def nestingDocs : List Doc → Nat
  | [] => 0
  | m :: rest => max (nestingDoc m) (nestingDocs rest)

/-- The variadic `MergeBSONMaps(maps ...bson.M) bson.M`.  The recursion descends one
map level per call, so the nesting of the arguments bounds its depth. -/
def MergeBSONMaps (maps : List Doc) : Except MergeError Doc :=
  mergeFuel (nestingDocs maps) maps

/-- The type assertion `v.(bson.M)` succeeds. -/
def Value.isDoc : Value → Bool
  | .doc _ => true
  | _ => false

/-- The type assertion `v.([]bson.M)` succeeds. -/
def Value.isDocs : Value → Bool
  | .docs _ => true
  | _ => false


/-- The value one iteration of the inner loop stores under `k`, from the value `cur`
found in `result` (if any) and the value `v` being merged. -/
def mergeValue (recur : List Doc → Except MergeError Doc) (k : String) :
    Option Value → Value → Except MergeError Value
  | none, v => .ok v
  | some (.doc c), .doc d =>
    match recur [c, d] with
    | .ok merged => .ok (.doc merged)
    | .error e => .error e
  | some (.docs c), .docs d => .ok (.docs (c ++ d))
  | some v1, v2 => .error (.conflict k v1 v2)

/-- Two candidates for the recursive call that agree, do not exhaust the budget and
keep the nesting below `N`, on every pair of maps nested less than `N`. -/
def RecAgree (N : Nat) (r1 r2 : List Doc → Except MergeError Doc) : Prop :=
  ∀ c d : Doc, nestingDoc c < N → nestingDoc d < N →
    r1 [c, d] = r2 [c, d] ∧ r1 [c, d] ≠ .error .outOfFuel ∧
      ∀ r, r1 [c, d] = .ok r → nestingDoc r < N

/-- What the loops preserve: same outcome under both candidates, no budget error,
nesting of the result at most `N`. -/
def LoopOk (N : Nat) (o1 o2 : Except MergeError Doc) : Prop :=
  o1 = o2 ∧ o1 ≠ .error .outOfFuel ∧ ∀ r, o1 = .ok r → nestingDoc r ≤ N

/-! ## Bulk writer -/

/-- A `BulkChange`.  `Selector` and `Update` are `interface{}` values, `none` is `nil`;
the `ctx` field carries no data. -/
structure BulkChange where
  Selector : Option Value
  Update : Option Value
  Upsert : Bool
  Remove : Bool
  SelectAll : Bool
  deriving Repr, Inhabited

/-- The type `BulkChanges`, `map[string][]BulkChange`, in iteration order. -/
abbrev BulkChanges := List (String × List BulkChange)

/-- The method `BulkChange.Size`.  `marshal` is `bson.Marshal` of the MongoDB driver with
its error dropped, as the source drops it: the bytes, or the nil slice on failure.
`buffer[:0]` is the slice of length zero. -/
def BulkChange.Size (marshal : Value → List Nat) (m : BulkChange) (buffer : List Nat) :
    List Nat × Int :=
  let size : Int := 0
  let buffer := if buffer.length > 0 then buffer.take 0 else buffer
  let (buffer, size) :=
    match m.Selector with
    | some sel =>
      let buffer := marshal sel
      (buffer.take 0, size + buffer.length)
    | none => (buffer, size)
  let (buffer, size) :=
    match m.Update with
    | some upd =>
      let buffer := marshal upd
      (buffer.take 0, size + buffer.length)
    | none => (buffer, size)
  (buffer, size)

/-- An operation issued on a `*mongo.Collection`. -/
inductive StoreOp where
  | DeleteMany (filter : Value)
  | DeleteOne (filter : Value)
  | UpdateOne (filter update : Value) (upsert : Bool)
  | UpdateMany (filter update : Value) (upsert : Bool)
  deriving Repr

/-- The method `BulkChange.Apply`: the operations it issues on `bulk`, in order. -/
def BulkChange.Apply (m : BulkChange) : List StoreOp :=
  match m.Selector with
  | none => []
  | some sel =>
    if m.Remove && m.SelectAll then [.DeleteMany sel]
    else if m.Remove then [.DeleteOne sel]
    else
      match m.Update with
      | some upd =>
        if m.Upsert then [.UpdateOne sel upd true]
        else if m.SelectAll then [.UpdateMany sel upd true]
        else [.UpdateOne sel upd false]
      | none => []

/-- The fields of `MgoBulkWriter` the worker reads. -/
structure MgoBulkWriter where
  maxBulkCount : Int
  maxBulkSize : Int
  deriving Repr

/-- The thresholds `NewBulkWriter` sets. -/
def NewBulkWriter : MgoBulkWriter :=
  { maxBulkCount := 500, maxBulkSize := 15 * 1000 * 1000 }

/-- The local variables of the worker of `MgoBulkWriter.Start`, and what it has done.
A `map[string]int` is its read function, `0` at an absent key.  `bulkBuffers` holds the
keys of the handle map (the handle of a key is the collection of that name).
`store` lists the operations issued so far with their collection; `applied` lists the
calls of `change.Apply`; `flushes` lists the collections whose counters were reset, one
entry per execution of a reset block. -/
structure WorkerState where
  bulkBuffers : List String
  bulkBufferSizes : String → Int
  bulkBufferLengths : String → Int
  sizeBuffer : List Nat
  store : List (String × StoreOp)
  applied : List (String × BulkChange)
  flushes : List String

/-- The state in which the worker enters its loop. -/
def initState : WorkerState :=
  { bulkBuffers := [], bulkBufferSizes := fun _ => 0, bulkBufferLengths := fun _ => 0,
    sizeBuffer := [], store := [], applied := [], flushes := [] }

/-- The reset of the two counters of `tgtColl` (the flush point). -/
def resetCounters (st : WorkerState) (tgtColl : String) : WorkerState :=
  { st with
    bulkBufferLengths := Function.update st.bulkBufferLengths tgtColl 0
    bulkBufferSizes := Function.update st.bulkBufferSizes tgtColl 0
    flushes := st.flushes ++ [tgtColl] }

/-- Body of `for _, change := range bulkChanges`. -/
def processChange (w : MgoBulkWriter) (marshal : Value → List Nat) (tgtColl : String)
    (st : WorkerState) (change : BulkChange) : WorkerState :=
  let sized := change.Size marshal st.sizeBuffer
  let changeSize := sized.2
  let st := { st with sizeBuffer := sized.1 }
  let st :=
    if st.bulkBufferLengths tgtColl ≥ w.maxBulkCount ∨
        st.bulkBufferSizes tgtColl + changeSize ≥ w.maxBulkSize then
      resetCounters st tgtColl
    else st
  { st with
    store := st.store ++ change.Apply.map (fun op => (tgtColl, op))
    applied := st.applied ++ [(tgtColl, change)]
    bulkBufferLengths := Function.update st.bulkBufferLengths tgtColl
      (st.bulkBufferLengths tgtColl + 1)
    bulkBufferSizes := Function.update st.bulkBufferSizes tgtColl
      (st.bulkBufferSizes tgtColl + changeSize) }

/-- Body of `for tgtColl, bulkChanges := range data`. -/
def processColl (w : MgoBulkWriter) (marshal : Value → List Nat) (st : WorkerState)
    (entry : String × List BulkChange) : WorkerState :=
  let st :=
    if entry.1 ∈ st.bulkBuffers then st
    else { st with bulkBuffers := st.bulkBuffers ++ [entry.1] }
  entry.2.foldl (processChange w marshal entry.1) st

/-- Body of `for data := range w.writeChannel`. -/
def processData (w : MgoBulkWriter) (marshal : Value → List Nat) (st : WorkerState)
    (data : BulkChanges) : WorkerState :=
  data.foldl (processColl w marshal) st

/-- The loop `for data := range w.writeChannel` over the ChangeSets received until the
channel is closed. -/
def receiveLoop (w : MgoBulkWriter) (marshal : Value → List Nat) (st : WorkerState)
    (input : List BulkChanges) : WorkerState :=
  input.foldl (processData w marshal) st

/-- The loop `for tgtColl, _ := range bulkBuffers` that runs once the channel is closed.
The keys are visited in the order they were added; resets of different keys commute. -/
def drain (st : WorkerState) : WorkerState :=
  st.bulkBuffers.foldl resetCounters st

/-- The worker of `MgoBulkWriter.Start`, run on the ChangeSets sent before `Close`. -/
def MgoBulkWriter.Start (w : MgoBulkWriter) (marshal : Value → List Nat)
    (input : List BulkChanges) : WorkerState :=
  drain (receiveLoop w marshal initState input)

/-- The changes of the received ChangeSets with their collection, in the order in which
the loops visit them. -/
def changesInOrder (input : List BulkChanges) : List (String × BulkChange) :=
  input.flatMap (fun data => data.flatMap (fun entry => entry.2.map (fun c => (entry.1, c))))

/-- The loop body run over a sequence of changes. -/
def processEvents (w : MgoBulkWriter) (marshal : Value → List Nat) (st : WorkerState)
    (evs : List (String × BulkChange)) : WorkerState :=
  evs.foldl (fun st e => processChange w marshal e.1 st e.2) st

/-- Two worker states that differ at most in the set of handles. -/
def SameCounters (a b : WorkerState) : Prop :=
  a.bulkBufferSizes = b.bulkBufferSizes ∧ a.bulkBufferLengths = b.bulkBufferLengths ∧
    a.sizeBuffer = b.sizeBuffer ∧ a.store = b.store ∧ a.applied = b.applied ∧
    a.flushes = b.flushes

/-- The change of the specification's scenario: an upsert on `hosts` with selector
`{ip: "10.0.0.1"}` and payload `{"$push": {"dat": {"ip": "10.0.0.1", "cid": 3}}}`. -/
def hostsChange : BulkChange :=
  { Selector := some (.doc [("ip", .str "10.0.0.1")]),
    Update := some (.doc [("$push", .doc [("dat", .doc [("ip", .str "10.0.0.1"), ("cid", .int 3)])])]),
    Upsert := true, Remove := false, SelectAll := false }

/-- A removal on `hosts` with the selector of the scenario. -/
def hostsRemoval : BulkChange :=
  { Selector := some (.doc [("ip", .str "10.0.0.1")]), Update := none,
    Upsert := false, Remove := true, SelectAll := false }

/-- The list a ChangeSet holds for the destination `d`: `data[d]`, empty when absent. -/
def changesFor (d : String) (data : BulkChanges) : List BulkChange :=
  (data.lookup d).getD []

/-! ### Counters and applied changes -/

/-- The changes on which `Apply` has been called for `d` so far, oldest first. -/
def appliedTo (st : WorkerState) (d : String) : List BulkChange :=
  (st.applied.filter (fun e => e.1 == d)).map Prod.snd

/-- Count and size of `d` are synchronised: the count is a number `n` of changes applied
for `d`, and the size is the sum of the size estimates of the last `n` of them. -/
def Synced (marshal : Value → List Nat) (st : WorkerState) (d : String) : Prop :=
  0 ≤ st.bulkBufferLengths d ∧
    (st.bulkBufferLengths d).toNat ≤ (appliedTo st d).length ∧
    st.bulkBufferSizes d =
      (((appliedTo st d).reverse.take (st.bulkBufferLengths d).toNat).map
        (fun c => (c.Size marshal []).2)).sum

/-! ## Apply and Size: the kinds of operation -/

/-- The four modes the data model lists: UpsertOne (update-one with upsert), UpdateMany,
DeleteOne, DeleteMany. -/
def StoreOp.isListedMode : StoreOp → Bool
  | .UpdateOne _ _ true => true
  | .UpdateMany _ _ _ => true
  | .DeleteOne _ => true
  | .DeleteMany _ => true
  | .UpdateOne _ _ false => false

/-- An update-one issued without the upsert option. -/
def StoreOp.isPlainUpdateOne : StoreOp → Bool
  | .UpdateOne _ _ false => true
  | _ => false

/-- A change with selector and payload and none of the three flags. -/
def plainChange : BulkChange :=
  { Selector := some (.doc [("ip", .str "10.0.0.1")]),
    Update := some (.doc [("$set", .doc [("blacklisted", .bool true)])]),
    Upsert := false, Remove := false, SelectAll := false }

/-- Length of the serialisation of an `interface{}` field, zero for `nil`. -/
def marshalLen (marshal : Value → List Nat) (field : Option Value) : Int :=
  match field with
  | some v => ((marshal v).length : Int)
  | none => 0

/-! ## Store gateway -/

/-- A `*mongo.Cursor`, as far as the gateway looks at it: what `Err()` reports. -/
structure Cursor where
  handle : Nat
  err : Option String
  deriving Repr, DecidableEq

/-- The answers of the MongoDB client to the two calls the gateway makes.  A Go `error` is
its message.  `Aggregate` answers with a cursor or with an error. -/
structure MongoClient where
  ListCollectionNames : String → Except String (List String)
  Aggregate : String → String → List Doc → Except String Cursor

/-- The fields of `DB` the gateway reads. -/
structure DB where
  Client : MongoClient
  selected : String

/-- What a gateway call does besides returning: client calls and log entries. -/
inductive GatewayEvent where
  | listCollectionNames (db : String)
  | aggregate (db coll : String) (pipeline : List Doc)
  | logError (message : String) (error : String)
  | logWarning (message : String)
  deriving Repr

/-- The method `DB.CollectionExists`. -/
def DB.CollectionExists (d : DB) (table : String) : Bool × List GatewayEvent :=
  match d.Client.ListCollectionNames d.selected with
  | .error err =>
    (false, [.listCollectionNames d.selected, .logError "Failed collection name lookup" err])
  | .ok coll => (coll.any (fun name => name == table), [.listCollectionNames d.selected])

/-- The method `DB.AggregateCollection`: the cursor (`none` is `nil`), the error (`none`
is `nil`), and what happened on the way. -/
def DB.AggregateCollection (d : DB) (sourceCollection : String) (pipeline : List Doc) :
    (Option Cursor × Option String) × List GatewayEvent :=
  let found := d.CollectionExists sourceCollection
  if !found.1 then
    ((none, some "Collection doesn't exist"),
      found.2 ++ [.logWarning
        ("Failed aggregation: (Source collection: " ++ sourceCollection ++ " doesn't exist)")])
  else
    let called := found.2 ++ [.aggregate d.selected sourceCollection pipeline]
    match d.Client.Aggregate d.selected sourceCollection pipeline with
    | .error err => ((none, some err), called)
    | .ok pipe =>
      match pipe.err with
      | some e => ((none, some e), called ++ [.logError "Failed aggregate operation" e])
      | none => ((some pipe, none), called)

/-- No pipeline was executed. -/
def noAggregate (events : List GatewayEvent) : Bool :=
  events.all (fun e => match e with
    | .aggregate _ _ _ => false
    | _ => true)

/-- A client whose database holds the collections `names`. -/
def clientWith (names : List String) : MongoClient :=
  { ListCollectionNames := fun _ => .ok names,
    Aggregate := fun _ _ _ => .ok { handle := 0, err := none } }

/-- A client whose collection-name lookup fails. -/
def clientDown : MongoClient :=
  { ListCollectionNames := fun _ => .error "server selection timeout",
    Aggregate := fun _ _ _ => .ok { handle := 0, err := none } }

/-! ## Start-up of the workers of a domain `Upsert` -/

/-- What the start-up loop has started. -/
structure Started where
  analyzerWorkers : Nat
  writerWorkers : Nat
  deriving Repr, DecidableEq

/-- The loop `for i := 0; i < util.Max(1, runtime.NumCPU()/2); i++` of the `Upsert` of
`host`, `certificate`, `blacklist`, `uconn` and `sniconn`, whose body calls
`analyzerWorker.start()` and `writerWorker.Start()` on the one writer the function made.
`utilMax` is `util.Max` of the repository's `util` package, `numCPU` is what
`runtime.NumCPU()` returns. -/
def startWorkers (utilMax : Int → Int → Int) (numCPU : Nat) : Started :=
  (List.range (utilMax 1 ((numCPU : Int) / 2)).toNat).foldl
    (fun st _ => { analyzerWorkers := st.analyzerWorkers + 1,
                   writerWorkers := st.writerWorkers + 1 })
    { analyzerWorkers := 0, writerWorkers := 0 }

/-! ## Chunk remover -/

/-- What the store answers to an operation: the error (`none` is `nil`) and the counts of
the result. -/
structure OpResult where
  err : Option String
  deletedCount : Int
  matchedCount : Int
  modifiedCount : Int
  upsertedCount : Int
  deriving Repr

/-- What the remover does: an operation issued on a collection, or an error logged with
its message and the collection name. -/
inductive RemoverEvent where
  | issued (coll : String) (op : StoreOp)
  | logged (message : String) (coll : String)
  deriving Repr

/-- The delete-many of `startCIDRemover`, with filter `{cid: cid}`. -/
def deleteWholeOp (cid : Int) : StoreOp :=
  .DeleteMany (.doc [("cid", .int cid)])

/-- The update-many of `startCIDRemover`, with filter `{dat.cid: cid}` and update
`{$pull: {dat: {cid: cid}}}`. -/
def pullChunkOp (cid : Int) : StoreOp :=
  .UpdateMany (.doc [("dat.cid", .int cid)])
    (.doc [("$pull", .doc [("dat", .doc [("cid", .int cid)])])]) false

/-- Body of `for data := range w.cidRemoverChannel`.  `answer` is the store: what it
answers to an operation on a collection, given what happened before. -/
def cidRemoverStep (cid : Int) (answer : List RemoverEvent → String → StoreOp → OpResult)
    (log : List RemoverEvent) (data : String) : List RemoverEvent :=
  let delInfo := answer log data (deleteWholeOp cid)
  let log := log ++ [.issued data (deleteWholeOp cid)]
  let log :=
    if delInfo.err.isSome || delInfo.deletedCount == 0 then
      log ++ [.logged "failed to delete whole document" data]
    else log
  let updateInfo := answer log data (pullChunkOp cid)
  let log := log ++ [.issued data (pullChunkOp cid)]
  let log :=
    if updateInfo.err.isSome ||
        (updateInfo.modifiedCount == 0 && updateInfo.upsertedCount == 0 &&
          updateInfo.matchedCount != 0) then
      log ++ [.logged "failed to delete chunk" data]
    else log
  log

/-- The worker of `writer.startCIDRemover`, run on the collection names sent before the
channel is closed. -/
def startCIDRemover (cid : Int) (answer : List RemoverEvent → String → StoreOp → OpResult)
    (names : List String) : List RemoverEvent :=
  names.foldl (cidRemoverStep cid answer) []

/-- The operations among the events, in order. -/
def issuedOps : List RemoverEvent → List (String × StoreOp)
  | [] => []
  | .issued coll op :: rest => (coll, op) :: issuedOps rest
  | .logged _ _ :: rest => issuedOps rest

/-- Modelled from the spec: the store's matching of the filter `{cid: c}` on a document, a
top-level chunk tag equal to `c`. -/
def matchesCid (c : Int) (d : Doc) : Bool :=
  match d.get "cid" with
  | some (.int i) => i == c
  | _ => false

/-- The history array `dat` of a document, empty when there is none. -/
def datEntries (d : Doc) : List Doc :=
  match d.get "dat" with
  | some (.docs l) => l
  | _ => []

/-- Modelled from the spec: the store's matching of the filter `{dat.cid: c}`, some
element of the array `dat` is tagged `c`. -/
def matchesDatCid (c : Int) (d : Doc) : Bool :=
  (datEntries d).any (matchesCid c)

/-- Modelled from the spec: the store's `$pull` of `{dat: {cid: c}}` on a document, a
filter on the array `dat` that drops the elements tagged `c`. -/
def pullDat (c : Int) (d : Doc) : Doc :=
  match d.get "dat" with
  | some (.docs l) => d.set "dat" (.docs (l.filter (fun e => !matchesCid c e)))
  | _ => d

/-- Modelled from the spec: what the two operations of the remover do to a collection, a
list of documents: delete-many is a filter on the documents, update-many applies the
`$pull` to the documents its filter matches.  Other operations are not modelled. -/
def execRemoverOp (op : StoreOp) (coll : List Doc) : Option (List Doc) :=
  match op with
  | .DeleteMany (.doc [("cid", .int c)]) => some (coll.filter (fun d => !matchesCid c d))
  | .UpdateMany (.doc [("dat.cid", .int c)])
      (.doc [("$pull", .doc [("dat", .doc [("cid", .int c2)])])]) _ =>
    some (coll.map (fun d => if matchesDatCid c d then pullDat c2 d else d))
  | _ => none

/-- The operations run one after the other on a collection. -/
def execRemoverOps : List StoreOp → List Doc → Option (List Doc)
  | [], coll => some coll
  | op :: rest, coll =>
    match execRemoverOp op coll with
    | some coll2 => execRemoverOps rest coll2
    | none => none

/-- A document written exclusively under chunk `c`: its top-level tag is `c` and so is
the tag of every entry of its history. -/
def exclusivelyUnder (c : Int) (d : Doc) : Bool :=
  matchesCid c d && (datEntries d).all (matchesCid c)

/-- A host document last written under chunk 2 whose history holds an entry of chunk 1
and an entry of chunk 2. -/
def mixedHostDoc : Doc :=
  [("ip", .str "10.0.0.1"), ("cid", .int 2),
   ("dat", .docs [[("cid", .int 1), ("count", .int 7)], [("cid", .int 2), ("count", .int 9)]])]

/-! ## Hostname worker -/

/-- The fields of the hostname `Input` the worker reads.  `ResolvedIPs` and `ClientIPs`
are what `Items()` returns for the two sets, as values placed in the update. -/
structure HostnameInput where
  Host : String
  ResolvedIPs : Value
  ClientIPs : Value

/-- The function `mainQuery` of the hostname analyzer. -/
def mainQuery (datum : HostnameInput) (chunk : Int) : Doc :=
  [("$set", .doc [("cid", .int chunk)]),
   ("$push", .doc [("dat", .doc [("$each", .docs [[
      ("ips", datum.ResolvedIPs),
      ("src_ips", datum.ClientIPs),
      ("cid", .int chunk)]])])])]

/-- The function `blQuery`: `count` is what `CountDocuments` answers on the blacklist
collection, the count (zero with an error) and the error. -/
def blQuery (count : Int × Option String) : Doc × Option String :=
  let blacklisted := decide (count.1 > 0)
  ([("$set", .doc [("blacklisted", .bool blacklisted)])], count.2)

/-- The test `strings.HasSuffix(s, suffix)`. -/
def hasSuffix (s suffix : String) : Bool :=
  suffix.data.isSuffixOf s.data

/-- What one iteration of the hostname worker does: errors logged and ChangeSets handed
to `analyzedCallback`. -/
structure AnalyzerStep where
  logged : List String
  forwarded : List BulkChanges

/-- Body of `for datum := range a.analysisChannel` of the hostname `analyzer.start`.
`hostnamesTable` is `conf.T.DNS.HostnamesTable`, `count` is the answer of the blacklist
lookup for this record.  The result is `none` when `MergeBSONMaps` panics. -/
def analyzeHostname (chunk : Int) (hostnamesTable : String)
    (count : HostnameInput → Int × Option String) (datum : HostnameInput) :
    Option AnalyzerStep :=
  if datum.Host = "" ∨ hasSuffix datum.Host "in-addr.arpa" = true then
    some { logged := [], forwarded := [] }
  else
    let mainUpdate := mainQuery datum chunk
    let bl := blQuery (count datum)
    let logged := match bl.2 with
      | some err => [err]
      | none => []
    match MergeBSONMaps [mainUpdate, bl.1] with
    | .error _ => none
    | .ok totalUpdate =>
      some { logged := logged,
             forwarded := [[(hostnamesTable,
               [{ Selector := some (.doc [("host", .str datum.Host)]),
                  Update := some (.doc totalUpdate),
                  Upsert := true, Remove := false, SelectAll := false }])]] }

/-! ## Beacon summarizers -/

/-- How a call that returns `(bson.M, bson.M, error)` ends. -/
inductive Outcome where
  | returned (selector query : Doc)
  | failed (err : String)
  | panicked
  deriving Repr

/-- What the store answers to a summarizer: the error of `Aggregate`, whether decoding
the first result fails, the two fields of the decoded struct after the `Next` block (their
zero values when there is no result), and the answer of `CountDocuments` for a selector. -/
structure SummaryAnswers where
  aggregateErr : Option String
  decodeFails : Bool
  peer : Value
  score : Value
  count : Doc → Except String Int

/-- The function `maxBeaconUpdate`; `hostSelector` is `datum.BSONKey()`. -/
def maxBeaconUpdate (ans : SummaryAnswers) (hostSelector : Doc) (chunk : Int) : Outcome :=
  match ans.aggregateErr with
  | some err => .failed err
  | none =>
    if ans.decodeFails then .panicked
    else
      match MergeBSONMaps [hostSelector,
          [("dat", .doc [("$elemMatch", .doc [("mbdst.ip", .doc [("$exists", .bool true)])])])]] with
      | .error _ => .panicked
      | .ok hostWithDatEntrySelector =>
        match ans.count hostWithDatEntrySelector with
        | .error err => .failed err
        | .ok nExistingEntries =>
          if nExistingEntries > 0 then
            .returned hostWithDatEntrySelector
              [("$set", .doc [
                ("dat.$.mbdst", ans.peer),
                ("dat.$.max_beacon_score", ans.score),
                ("dat.$.cid", .int chunk)])]
          else
            .returned hostSelector
              [("$push", .doc [("dat", .doc [("$each", .docs [[
                ("mbdst", ans.peer),
                ("max_beacon_score", ans.score),
                ("cid", .int chunk)]])])])]

/-- The function `maxProxyBeaconUpdate`; `hostSelector` is `datum.BSONKey()`. -/
def maxProxyBeaconUpdate (ans : SummaryAnswers) (hostSelector : Doc) (chunk : Int) : Outcome :=
  match ans.aggregateErr with
  | some err => .failed err
  | none =>
    if ans.decodeFails then .panicked
    else
      match MergeBSONMaps [hostSelector,
          [("dat", .doc [("$elemMatch", .doc [("mbproxy", .doc [("$exists", .bool true)])])])]] with
      | .error _ => .panicked
      | .ok hostWithDatEntrySelector =>
        match ans.count hostWithDatEntrySelector with
        | .error err => .failed err
        | .ok nExistingEntries =>
          if nExistingEntries > 0 then
            .returned hostWithDatEntrySelector
              [("$set", .doc [
                ("dat.$.mbproxy", ans.peer),
                ("dat.$.max_beacon_proxy_score", ans.score),
                ("dat.$.cid", .int chunk)])]
          else
            .returned hostSelector
              [("$push", .doc [("dat", .doc [("$each", .docs [[
                ("mbproxy", ans.peer),
                ("max_beacon_proxy_score", ans.score),
                ("cid", .int chunk)]])])])]

/-- The elements an update pushes onto the array `dat`: those of `$push.dat.$each`. -/
def pushedElements (query : Doc) : List Doc :=
  match query.get "$push" with
  | some (.doc p) =>
    match Doc.get p "dat" with
    | some (.doc e) =>
      match Doc.get e "$each" with
      | some (.docs l) => l
      | _ => []
    | _ => []
  | _ => []

/-- The chunk tag an update sets on the matched element of `dat`: `$set["dat.$.cid"]`. -/
def positionalCid (query : Doc) : Option Value :=
  match query.get "$set" with
  | some (.doc s) => Doc.get s "dat.$.cid"
  | _ => none

/-- A query either pushes exactly one element onto `dat`, tagged `chunk`, or pushes none
and sets the tag of the matched element of `dat` to `chunk`. -/
def tagsWithChunk (chunk : Int) (query : Doc) : Prop :=
  (∃ e, pushedElements query = [e] ∧ Doc.get e "cid" = some (.int chunk)) ∨
    (pushedElements query = [] ∧ positionalCid query = some (.int chunk))

/-- A host record and the answers of a store that holds a beacon for it. -/
def sampleAnswers (n : Int) : SummaryAnswers :=
  { aggregateErr := none, decodeFails := false,
    peer := .doc [("ip", .str "93.184.216.34")], score := .int 1,
    count := fun _ => .ok n }

/-! ## SNI connections: linking the inputs -/

/-- The map read `v, ok := m[k]` on a Go map with string keys. -/
def mapGet {β : Type} : List (String × β) → String → Option β
  | [], _ => none
  | (k', v) :: rest, k => if k' = k then some v else mapGet rest k

/-- The map write `m[k] = v` on a Go map with string keys. -/
def mapSet {β : Type} : List (String × β) → String → β → List (String × β)
  | [], k, v => [(k, v)]
  | (k', v') :: rest, k, v =>
    if k' = k then (k', v) :: rest else (k', v') :: mapSet rest k v

/-- The keys of a Go map. -/
def mapKeys {β : Type} (m : List (String × β)) : List String := m.map Prod.fst

/-- The fields of `TLSInput` that `linkInputMaps` reads, and the rest of the record. -/
structure TLSInput where
  ZeekUIDs : List String
  rest : Doc

/-- The fields of `HTTPInput` that `linkInputMaps` reads, and the rest of the record. -/
structure HTTPInput where
  ZeekUIDs : List String
  rest : Doc

/-- A `data.ZeekUIDRecord`. -/
structure ZeekUIDRecord where
  fields : Doc

/-- The struct `linkedInput`; `none` is the nil pointer, `[]` the nil slice. -/
structure linkedInput where
  TLS : Option TLSInput
  TLSZeekRecords : List ZeekUIDRecord
  HTTP : Option HTTPInput
  HTTPZeekRecords : List ZeekUIDRecord

/-- The value `&linkedInput{}`. -/
def linkedInput.zero : linkedInput :=
  { TLS := none, TLSZeekRecords := [], HTTP := none, HTTPZeekRecords := [] }

/-- The loop `for _, zeekUID := range value.ZeekUIDs` that appends the record of every UID
found in `zeekUIDMap`. -/
def zeekRecordsFor (zeekUIDMap : List (String × ZeekUIDRecord)) (uids : List String) :
    List ZeekUIDRecord :=
  uids.foldl
    (fun records zeekUID =>
      match mapGet zeekUIDMap zeekUID with
      | some zeekRecord => records ++ [zeekRecord]
      | none => records)
    []

/-- The entry `linkedMap[key]` after `if _, ok := linkedMap[key]; !ok` has made sure that
there is one. -/
def ensureEntry (linkedMap : List (String × linkedInput)) (key : String) :
    List (String × linkedInput) :=
  match mapGet linkedMap key with
  | some _ => linkedMap
  | none => mapSet linkedMap key linkedInput.zero

/-- Body of `for tlsKey, tlsValue := range tlsMap`. -/
def linkTLS (zeekUIDMap : List (String × ZeekUIDRecord))
    (linkedMap : List (String × linkedInput)) (entry : String × TLSInput) :
    List (String × linkedInput) :=
  let linkedMap := ensureEntry linkedMap entry.1
  let tlsZeekRecords := zeekRecordsFor zeekUIDMap entry.2.ZeekUIDs
  let cur := (mapGet linkedMap entry.1).getD linkedInput.zero
  mapSet linkedMap entry.1 { cur with TLS := some entry.2, TLSZeekRecords := tlsZeekRecords }

/-- Body of `for httpKey, httpValue := range httpMap`. -/
def linkHTTP (zeekUIDMap : List (String × ZeekUIDRecord))
    (linkedMap : List (String × linkedInput)) (entry : String × HTTPInput) :
    List (String × linkedInput) :=
  let linkedMap := ensureEntry linkedMap entry.1
  let httpZeekRecords := zeekRecordsFor zeekUIDMap entry.2.ZeekUIDs
  let cur := (mapGet linkedMap entry.1).getD linkedInput.zero
  mapSet linkedMap entry.1 { cur with HTTP := some entry.2, HTTPZeekRecords := httpZeekRecords }

/-- The function `linkInputMaps`.  The maps hold pointers to records, none of them nil. -/
def linkInputMaps (tlsMap : List (String × TLSInput)) (httpMap : List (String × HTTPInput))
    (zeekUIDMap : List (String × ZeekUIDRecord)) : List (String × linkedInput) :=
  httpMap.foldl (linkHTTP zeekUIDMap) (tlsMap.foldl (linkTLS zeekUIDMap) [])

/-- A TLS map with two server names, one of which is also in `sampleHTTP`. -/
def sampleTLS : List (String × TLSInput) :=
  [("a.example", { ZeekUIDs := ["C1", "C9", "C2"], rest := [] }),
   ("b.example", { ZeekUIDs := [], rest := [] })]

/-- An HTTP map with two host names. -/
def sampleHTTP : List (String × HTTPInput) :=
  [("b.example", { ZeekUIDs := ["C2"], rest := [] }),
   ("c.example", { ZeekUIDs := ["C3"], rest := [] })]

/-- A UID map that holds `C1` and `C2` only. -/
def sampleZeek : List (String × ZeekUIDRecord) :=
  [("C1", { fields := [("n", .int 1)] }), ("C2", { fields := [("n", .int 2)] })]

/-! ### A concrete `bson.Marshal`

The worker is parametric in `marshal`.  For the concrete scenarios the parameter is
instantiated with the BSON wire encoding of a document: int32 length, elements, zero
byte; an element is a type byte, the key as a cstring, and the value. -/

/-- Little-endian bytes of a number, `w` of them. -/
def leBytes : Nat → Nat → List Nat
  | 0, _ => []
  | w + 1, n => n % 256 :: leBytes w (n / 256)

/-- UTF-8 bytes of a string. -/
def utf8Bytes (s : String) : List Nat :=
  s.data.flatMap (fun c => (String.utf8EncodeChar c).map UInt8.toNat)

/-- A BSON `cstring`: the bytes followed by a zero byte. -/
def cstring (s : String) : List Nat := utf8Bytes s ++ [0]

/-- A BSON `string`: int32 length (with the terminator), bytes, zero byte. -/
def bsonString (s : String) : List Nat :=
  leBytes 4 ((utf8Bytes s).length + 1) ++ utf8Bytes s ++ [0]

/-- Wrap the element bytes of a document: int32 total length, elements, zero byte. -/
def bsonWrap (elems : List Nat) : List Nat := leBytes 4 (elems.length + 5) ++ elems ++ [0]

/-- Elements of a BSON array of strings, keyed by their index from `i` on. -/
def bsonStrArray : Nat → List String → List Nat
  | _, [] => []
  | i, s :: rest => [2] ++ cstring (toString i) ++ bsonString s ++ bsonStrArray (i + 1) rest

mutual
/-- One element: type byte, key, value.  A Go `int` is an int32 when it fits, an int64
otherwise. -/
def bsonElem : String → Value → List Nat
  | k, .null => [10] ++ cstring k
  | k, .bool b => [8] ++ cstring k ++ [if b then 1 else 0]
  | k, .int i =>
    if -2147483648 ≤ i ∧ i ≤ 2147483647 then [16] ++ cstring k ++ leBytes 4 (i % 4294967296).toNat
    else [18] ++ cstring k ++ leBytes 8 (i % 18446744073709551616).toNat
  | k, .str s => [2] ++ cstring k ++ bsonString s
  | k, .strs l => [4] ++ cstring k ++ bsonWrap (bsonStrArray 0 l)
  | k, .doc m => [3] ++ cstring k ++ bsonWrap (bsonElems m)
  | k, .docs l => [4] ++ cstring k ++ bsonWrap (bsonDocArray 0 l)
/-- Elements of a document, in order. -/
def bsonElems : List (String × Value) → List Nat
  | [] => []
  | (k, v) :: rest => bsonElem k v ++ bsonElems rest
/-- Elements of a BSON array of documents, keyed by their index from `i` on. -/
def bsonDocArray : Nat → List (List (String × Value)) → List Nat
  | _, [] => []
  | i, d :: rest => [3] ++ cstring (toString i) ++ bsonWrap (bsonElems d) ++ bsonDocArray (i + 1) rest
end

/-- The bytes of `bson.Marshal` for a document; a value that is not a document cannot be
marshalled at top level and gives the nil slice. -/
def bsonMarshal : Value → List Nat
  | .doc m => bsonWrap (bsonElems m)
  | _ => []


/-! # Properties -/

/-! ## Map reads and writes -/

theorem Doc.get_set_same (m : Doc) (k : String) (v : Value) : (m.set k v).get k = some v := by
  induction m with
  | nil => simp [Doc.set, Doc.get]
  | cons p rest ih =>
    obtain ⟨k', v'⟩ := p
    by_cases h : k' = k <;> simp [Doc.set, Doc.get, h, ih]

theorem Doc.get_set_ne (m : Doc) (k j : String) (v : Value) (h : k ≠ j) :
    (m.set k v).get j = m.get j := by
  induction m with
  | nil => simp [Doc.set, Doc.get, h]
  | cons p rest ih =>
    obtain ⟨k', v'⟩ := p
    by_cases h1 : k' = k
    · subst h1; simp [Doc.set, Doc.get, h]
    · by_cases h2 : k' = j
      · subst h2; simp [Doc.set, Doc.get, h1]
      · simp [Doc.set, Doc.get, h1, h2, ih]

theorem Doc.get_eq_none_iff (m : Doc) (k : String) : m.get k = none ↔ k ∉ m.keys := by
  induction m with
  | nil => simp [Doc.get, Doc.keys]
  | cons p rest ih =>
    obtain ⟨k', v'⟩ := p
    by_cases h : k' = k
    · simp [Doc.get, Doc.keys, h]
    · simp only [Doc.get, h, if_false, ih, Doc.keys, List.map_cons, List.mem_cons, not_or]
      constructor
      · intro h1; exact ⟨fun h2 => h h2.symm, h1⟩
      · intro h1; exact h1.2

theorem Doc.set_of_get_none (m : Doc) (k : String) (v : Value) (h : m.get k = none) :
    m.set k v = m ++ [(k, v)] := by
  induction m with
  | nil => simp [Doc.set]
  | cons p rest ih =>
    obtain ⟨k', v'⟩ := p
    by_cases h1 : k' = k
    · simp [Doc.get, h1] at h
    · simp only [Doc.get, h1, if_false] at h
      simp [Doc.set, h1, ih h]

theorem Doc.get_append (a b : Doc) (k : String) :
    (a ++ b).get k = (a.get k).orElse (fun _ => b.get k) := by
  induction a with
  | nil => simp [Doc.get]
  | cons p rest ih =>
    obtain ⟨k', v'⟩ := p
    by_cases h : k' = k <;> simp [Doc.get, h, ih]

theorem Doc.get_of_mem (m : Doc) (hm : m.WF) (k : String) (v : Value) (h : (k, v) ∈ m) :
    m.get k = some v := by
  induction m with
  | nil => simp at h
  | cons p rest ih =>
    obtain ⟨k', v'⟩ := p
    simp only [Doc.WF, Doc.keys, List.map_cons, List.nodup_cons] at hm
    rcases List.mem_cons.mp h with h1 | h1
    · cases h1; simp [Doc.get]
    · have hne : k' ≠ k := by
        intro e; subst e
        exact hm.1 (List.mem_map.mpr ⟨(k', v), h1, rfl⟩)
      simp only [Doc.get, hne, if_false]
      exact ih hm.2 h1

theorem Doc.mem_of_get (m : Doc) (k : String) (v : Value) (h : m.get k = some v) :
    (k, v) ∈ m := by
  induction m with
  | nil => simp [Doc.get] at h
  | cons p rest ih =>
    obtain ⟨k', v'⟩ := p
    by_cases h1 : k' = k
    · simp [Doc.get, h1] at h; simp [h1, h]
    · simp only [Doc.get, h1, if_false] at h
      exact List.mem_cons_of_mem _ (ih h)

/-! ## One iteration of the inner loop -/

theorem mergeKey_eq (recur : List Doc → Except MergeError Doc) (result : Doc) (k : String)
    (v : Value) :
    mergeKey recur result (k, v) =
      match mergeValue recur k (result.get k) v with
      | .ok x => .ok (result.set k x)
      | .error e => .error e := by
  unfold mergeKey
  cases h : result.get k with
  | none => simp [mergeValue]
  | some cur =>
    cases cur <;> cases v <;> simp [mergeValue]
    split <;> simp_all


/-! ## The inner loop -/

theorem mergeMap_cons (recur : List Doc → Except MergeError Doc) (result : Doc)
    (kv : String × Value) (rest : Doc) :
    mergeMap recur result (kv :: rest) =
      match mergeKey recur result kv with
      | .ok result' => mergeMap recur result' rest
      | .error e => .error e := rfl

/-- A key the merged map does not hold keeps the value it had in `result`. -/
theorem mergeMap_get_of_not_mem (recur : List Doc → Except MergeError Doc) (b : Doc) :
    ∀ (result r : Doc) (k : String), k ∉ b.keys → mergeMap recur result b = .ok r →
      r.get k = result.get k := by
  induction b with
  | nil => intro result r k _ h; simp [mergeMap] at h; rw [h]
  | cons p rest ih =>
    obtain ⟨j, y⟩ := p
    intro result r k hk h
    simp only [Doc.keys, List.map_cons, List.mem_cons, not_or] at hk
    rw [mergeMap_cons, mergeKey_eq] at h
    cases hv : mergeValue recur j (result.get j) y with
    | error e => simp [hv] at h
    | ok x =>
      simp only [hv] at h
      rw [ih _ _ _ hk.2 h, Doc.get_set_ne _ _ _ _ (Ne.symm hk.1)]

/-- A key the merged map holds ends with the value `mergeValue` computes from the
value `result` had for it. -/
theorem mergeMap_get_of_mem (recur : List Doc → Except MergeError Doc) (b : Doc) :
    ∀ (result r : Doc) (k : String) (y : Value), b.WF → (k, y) ∈ b →
      mergeMap recur result b = .ok r →
      ∃ x, mergeValue recur k (result.get k) y = .ok x ∧ r.get k = some x := by
  induction b with
  | nil => intro result r k y _ hmem; simp at hmem
  | cons p rest ih =>
    obtain ⟨j, z⟩ := p
    intro result r k y hwf hmem h
    simp only [Doc.WF, Doc.keys, List.map_cons, List.nodup_cons] at hwf
    rw [mergeMap_cons, mergeKey_eq] at h
    cases hv : mergeValue recur j (result.get j) z with
    | error e => simp [hv] at h
    | ok x =>
      simp only [hv] at h
      rcases List.mem_cons.mp hmem with h1 | h1
      · cases h1
        refine ⟨x, hv, ?_⟩
        rw [mergeMap_get_of_not_mem recur rest _ _ _ hwf.1 h, Doc.get_set_same]
      · have hne : j ≠ k := by
          intro e; subst e
          exact hwf.1 (List.mem_map.mpr ⟨(j, y), h1, rfl⟩)
        obtain ⟨x', hx', hr⟩ := ih _ _ _ _ hwf.2 h1 h
        rw [Doc.get_set_ne _ _ _ _ hne] at hx'
        exact ⟨x', hx', hr⟩

/-- The inner loop returns when every key of the merged map can be combined with
what `result` holds for it. -/
theorem mergeMap_ok_of_all (recur : List Doc → Except MergeError Doc) (b : Doc) :
    ∀ (result : Doc), b.WF →
      (∀ k y, (k, y) ∈ b → ∃ x, mergeValue recur k (result.get k) y = .ok x) →
      ∃ r, mergeMap recur result b = .ok r := by
  induction b with
  | nil => intro result _ _; exact ⟨result, rfl⟩
  | cons p rest ih =>
    obtain ⟨j, z⟩ := p
    intro result hwf hall
    simp only [Doc.WF, Doc.keys, List.map_cons, List.nodup_cons] at hwf
    obtain ⟨x, hx⟩ := hall j z (List.mem_cons_self _ _)
    rw [mergeMap_cons, mergeKey_eq]
    simp only [hx]
    apply ih _ hwf.2
    intro k y hmem
    have hne : j ≠ k := by
      intro e; subst e
      exact hwf.1 (List.mem_map.mpr ⟨(j, y), hmem, rfl⟩)
    rw [Doc.get_set_ne _ _ _ _ hne]
    exact hall k y (List.mem_cons_of_mem _ hmem)

/-- An error of the inner loop is the error `mergeValue` gives for one of the keys. -/
theorem mergeMap_error (recur : List Doc → Except MergeError Doc) (b : Doc) :
    ∀ (result : Doc) (e : MergeError), mergeMap recur result b = .error e →
      ∃ k y cur, (k, y) ∈ b ∧ mergeValue recur k cur y = .error e := by
  induction b with
  | nil => intro result e h; simp [mergeMap] at h
  | cons p rest ih =>
    obtain ⟨j, z⟩ := p
    intro result e h
    rw [mergeMap_cons, mergeKey_eq] at h
    cases hv : mergeValue recur j (result.get j) z with
    | error e' =>
      simp only [hv] at h
      cases h
      exact ⟨j, z, _, List.mem_cons_self _ _, hv⟩
    | ok x =>
      simp only [hv] at h
      obtain ⟨k, y, cur, hmem, hk⟩ := ih _ _ h
      exact ⟨k, y, cur, List.mem_cons_of_mem _ hmem, hk⟩

/-- Merging a map none of whose keys is in `result` appends it. -/
theorem mergeMap_disjoint (recur : List Doc → Except MergeError Doc) (b : Doc) :
    ∀ (result : Doc), b.WF → (∀ k, k ∈ b.keys → result.get k = none) →
      mergeMap recur result b = .ok (result ++ b) := by
  induction b with
  | nil => intro result _ _; simp [mergeMap]
  | cons p rest ih =>
    obtain ⟨j, z⟩ := p
    intro result hwf hdis
    simp only [Doc.WF, Doc.keys, List.map_cons, List.nodup_cons] at hwf
    have hj : result.get j = none := hdis j (by simp [Doc.keys])
    rw [mergeMap_cons, mergeKey_eq, hj]
    simp only [mergeValue]
    rw [Doc.set_of_get_none _ _ _ hj, ih _ hwf.2]
    · simp
    · intro k hk
      have hne : j ≠ k := by intro e; subst e; exact hwf.1 hk
      rw [Doc.get_append, hdis k (by simp [Doc.keys]; right; simpa [Doc.keys] using hk)]
      simp [Doc.get, hne]

/-- Merging a well-formed map into the empty result copies it. -/
theorem mergeMap_nil (recur : List Doc → Except MergeError Doc) (a : Doc) (ha : a.WF) :
    mergeMap recur [] a = .ok a := by
  have := mergeMap_disjoint recur a [] ha (fun k _ => rfl)
  simpa using this

/-- With two maps, the outer loop copies the first and runs the inner loop on the second. -/
theorem mergeMaps_pair (recur : List Doc → Except MergeError Doc) (a b : Doc) (ha : a.WF) :
    mergeMaps recur [] [a, b] = mergeMap recur a b := by
  simp only [mergeMaps, mergeMap_nil recur a ha]
  cases mergeMap recur a b <;> rfl


/-! ## The recursion budget is never exhausted -/

theorem Value.nesting_doc (m : Doc) : (Value.doc m).nesting = nestingDoc m + 1 := by
  simp [Value.nesting]

theorem nestingDoc_cons (k : String) (v : Value) (rest : Doc) :
    nestingDoc ((k, v) :: rest) = max v.nesting (nestingDoc rest) := by
  simp [nestingDoc]

theorem nesting_le_of_get (m : Doc) (k : String) (v : Value) (h : m.get k = some v) :
    v.nesting ≤ nestingDoc m := by
  induction m with
  | nil => simp [Doc.get] at h
  | cons p rest ih =>
    obtain ⟨k', v'⟩ := p
    rw [nestingDoc_cons]
    by_cases h1 : k' = k
    · simp [Doc.get, h1] at h; subst h; exact le_max_left _ _
    · simp only [Doc.get, h1, if_false] at h
      exact le_trans (ih h) (le_max_right _ _)

theorem nestingDoc_set_le (m : Doc) (k : String) (v : Value) (N : Nat)
    (hm : nestingDoc m ≤ N) (hv : v.nesting ≤ N) : nestingDoc (m.set k v) ≤ N := by
  induction m with
  | nil => simp [Doc.set, nestingDoc_cons, nestingDoc, hv]
  | cons p rest ih =>
    obtain ⟨k', v'⟩ := p
    rw [nestingDoc_cons] at hm
    have h1 := le_trans (le_max_left _ _) hm
    have h2 := le_trans (le_max_right _ _) hm
    by_cases h : k' = k
    · simp [Doc.set, h, nestingDoc_cons, hv, h2]
    · simp [Doc.set, h, nestingDoc_cons, h1, ih h2]

theorem mergeValue_agree (N : Nat) (r1 r2 : List Doc → Except MergeError Doc)
    (hrec : RecAgree N r1 r2) (k : String) (cur : Option Value) (v : Value)
    (hcur : ∀ c, cur = some c → c.nesting ≤ N) (hv : v.nesting ≤ N) :
    mergeValue r1 k cur v = mergeValue r2 k cur v ∧
      mergeValue r1 k cur v ≠ .error .outOfFuel ∧
      ∀ x, mergeValue r1 k cur v = .ok x → x.nesting ≤ N := by
  cases cur with
  | none =>
    refine ⟨by simp [mergeValue], by simp [mergeValue], ?_⟩
    intro x hx
    simp only [mergeValue, Except.ok.injEq] at hx
    exact hx ▸ hv
  | some c =>
    have hc := hcur c rfl
    cases c <;> cases v <;>
      first
      | (refine ⟨?_, ?_, ?_⟩ <;> simp [mergeValue, Value.nesting]; done)
      | skip
    · rename_i c d
      rw [Value.nesting_doc] at hc hv
      obtain ⟨h1, h2, h3⟩ := hrec c d (by omega) (by omega)
      simp only [mergeValue]
      rw [← h1]
      cases hr : r1 [c, d] with
      | error e =>
        refine ⟨rfl, ?_, by simp⟩
        intro h; cases h; exact h2 hr
      | ok m =>
        refine ⟨rfl, by simp, ?_⟩
        intro x hx
        cases hx
        rw [Value.nesting_doc]
        have := h3 m hr
        omega

theorem mergeKey_agree (N : Nat) (r1 r2 : List Doc → Except MergeError Doc)
    (hrec : RecAgree N r1 r2) (result : Doc) (kv : String × Value)
    (hres : nestingDoc result ≤ N) (hv : kv.2.nesting ≤ N) :
    LoopOk N (mergeKey r1 result kv) (mergeKey r2 result kv) := by
  obtain ⟨k, v⟩ := kv
  obtain ⟨h1, h2, h3⟩ := mergeValue_agree N r1 r2 hrec k (result.get k) v
    (fun c hc => le_trans (nesting_le_of_get _ _ _ hc) hres) hv
  unfold LoopOk
  rw [mergeKey_eq, mergeKey_eq, ← h1]
  cases hx : mergeValue r1 k (result.get k) v with
  | error e =>
    refine ⟨rfl, ?_, by simp⟩
    intro h; cases h; exact h2 hx
  | ok x =>
    refine ⟨rfl, by simp, ?_⟩
    intro r hr
    cases hr
    exact nestingDoc_set_le _ _ _ _ hres (h3 x hx)

theorem mergeMap_agree (N : Nat) (r1 r2 : List Doc → Except MergeError Doc)
    (hrec : RecAgree N r1 r2) (b : Doc) :
    ∀ result : Doc, nestingDoc result ≤ N → nestingDoc b ≤ N →
      LoopOk N (mergeMap r1 result b) (mergeMap r2 result b) := by
  induction b with
  | nil =>
    intro result hres _
    refine ⟨rfl, by simp [mergeMap], ?_⟩
    intro r hr
    simp only [mergeMap, Except.ok.injEq] at hr
    exact hr ▸ hres
  | cons kv rest ih =>
    intro result hres hb
    obtain ⟨k, v⟩ := kv
    rw [nestingDoc_cons] at hb
    obtain ⟨h1, h2, h3⟩ := mergeKey_agree N r1 r2 hrec result (k, v) hres
      (le_trans (le_max_left _ _) hb)
    rw [mergeMap_cons, mergeMap_cons, ← h1]
    cases hx : mergeKey r1 result (k, v) with
    | error e =>
      refine ⟨rfl, ?_, by simp⟩
      intro h; cases h; exact h2 hx
    | ok result' =>
      exact ih result' (h3 _ hx) (le_trans (le_max_right _ _) hb)

theorem mergeMaps_agree (N : Nat) (r1 r2 : List Doc → Except MergeError Doc)
    (hrec : RecAgree N r1 r2) (maps : List Doc) :
    ∀ result : Doc, nestingDoc result ≤ N → nestingDocs maps ≤ N →
      LoopOk N (mergeMaps r1 result maps) (mergeMaps r2 result maps) := by
  induction maps with
  | nil =>
    intro result hres _
    refine ⟨rfl, by simp [mergeMaps], ?_⟩
    intro r hr
    simp only [mergeMaps, Except.ok.injEq] at hr
    exact hr ▸ hres
  | cons m rest ih =>
    intro result hres hb
    simp only [nestingDocs] at hb
    obtain ⟨h1, h2, h3⟩ := mergeMap_agree N r1 r2 hrec m result hres
      (le_trans (le_max_left _ _) hb)
    simp only [mergeMaps]
    rw [← h1]
    cases hx : mergeMap r1 result m with
    | error e =>
      refine ⟨rfl, ?_, by simp⟩
      intro h; cases h; exact h2 hx
    | ok result' =>
      exact ih result' (h3 _ hx) (le_trans (le_max_right _ _) hb)

/-- With a budget of at least the nesting of the arguments, the merge does not
exhaust it, its result is nested no deeper than the arguments, and one more unit
of budget changes nothing. -/
theorem mergeFuel_spec (n : Nat) :
    ∀ maps : List Doc, nestingDocs maps ≤ n →
      mergeFuel n maps = mergeFuel (n + 1) maps ∧
      mergeFuel n maps ≠ .error .outOfFuel ∧
      ∀ r, mergeFuel n maps = .ok r → nestingDoc r ≤ nestingDocs maps := by
  induction n with
  | zero =>
    intro maps hmaps
    have hN : nestingDocs maps = 0 := by omega
    have hrec : RecAgree 0 (fun _ => .error .outOfFuel) (mergeFuel 0) := by
      intro c d hc; omega
    have := mergeMaps_agree 0 _ _ hrec maps [] (by simp [nestingDoc]) (by omega)
    rw [hN]
    exact this
  | succ n ih =>
    intro maps hmaps
    have hrec : RecAgree (nestingDocs maps) (mergeFuel n) (mergeFuel (n + 1)) := by
      intro c d hc hd
      have hcd : nestingDocs [c, d] ≤ n := by
        simp only [nestingDocs]; omega
      obtain ⟨h1, h2, h3⟩ := ih [c, d] hcd
      refine ⟨h1, h2, ?_⟩
      intro r hr
      have := h3 r hr
      simp only [nestingDocs] at this
      omega
    exact mergeMaps_agree _ _ _ hrec maps [] (by simp [nestingDoc]) (le_refl _)

/-- Any budget of at least the nesting of the arguments gives `MergeBSONMaps`. -/
theorem mergeFuel_eq (maps : List Doc) (j : Nat) :
    mergeFuel (nestingDocs maps + j) maps = MergeBSONMaps maps := by
  induction j with
  | zero => rfl
  | succ j ih =>
    rw [← ih, ← Nat.add_assoc]
    exact ((mergeFuel_spec _ maps (by omega)).1).symm

/-- The recursion budget of the embedding is never the outcome: `MergeBSONMaps` either
returns a document or panics. -/
theorem MergeBSONMaps_ne_outOfFuel (maps : List Doc) :
    MergeBSONMaps maps ≠ .error .outOfFuel :=
  (mergeFuel_spec _ maps (le_refl _)).2.1

/-- The defining equation of the source: both loops over `result := bson.M{}`, with
`MergeBSONMaps` itself as the recursive call. -/
theorem MergeBSONMaps_unfold (maps : List Doc) :
    MergeBSONMaps maps = mergeMaps MergeBSONMaps [] maps := by
  have hrec : RecAgree (nestingDocs maps) (mergeFuel (nestingDocs maps)) MergeBSONMaps := by
    intro c d hc hd
    have hcd : nestingDocs [c, d] ≤ nestingDocs maps := by
      simp only [nestingDocs]; omega
    obtain ⟨_, h2, h3⟩ := mergeFuel_spec (nestingDocs maps) [c, d] hcd
    refine ⟨?_, h2, ?_⟩
    · have := mergeFuel_eq [c, d] (nestingDocs maps - nestingDocs [c, d])
      rwa [Nat.add_sub_cancel' hcd] at this
    · intro r hr
      have := h3 r hr
      simp only [nestingDocs] at this
      omega
  have h1 := (mergeFuel_spec _ maps (le_refl _)).1
  have h2 := (mergeMaps_agree _ _ _ hrec maps [] (by simp [nestingDoc]) (le_refl _)).1
  calc MergeBSONMaps maps = mergeFuel (nestingDocs maps + 1) maps := h1
    _ = mergeMaps (mergeFuel (nestingDocs maps)) [] maps := rfl
    _ = mergeMaps MergeBSONMaps [] maps := h2


/-! ## Merging two maps -/

theorem MergeBSONMaps_pair (a b : Doc) (ha : a.WF) :
    MergeBSONMaps [a, b] = mergeMap MergeBSONMaps a b := by
  rw [MergeBSONMaps_unfold, mergeMaps_pair _ a b ha]

/-- The value of the merge of two maps at each key, when the merge returns. -/
theorem MergeBSONMaps_pair_get (a b r : Doc) (ha : a.WF) (hb : b.WF)
    (h : MergeBSONMaps [a, b] = .ok r) (j : String) :
    (b.get j = none → r.get j = a.get j) ∧
      (∀ y, b.get j = some y →
        ∃ v, mergeValue MergeBSONMaps j (a.get j) y = .ok v ∧ r.get j = some v) := by
  rw [MergeBSONMaps_pair a b ha] at h
  constructor
  · intro hj
    exact mergeMap_get_of_not_mem _ b a r j ((Doc.get_eq_none_iff b j).mp hj) h
  · intro y hy
    exact mergeMap_get_of_mem _ b a r j y hb (Doc.mem_of_get b j y hy) h

/-- The merge of two maps returns when every key of the second can be combined. -/
theorem MergeBSONMaps_pair_ok (a b : Doc) (ha : a.WF) (hb : b.WF)
    (hall : ∀ j y, b.get j = some y → ∃ v, mergeValue MergeBSONMaps j (a.get j) y = .ok v) :
    ∃ r, MergeBSONMaps [a, b] = .ok r := by
  rw [MergeBSONMaps_pair a b ha]
  apply mergeMap_ok_of_all _ b a hb
  intro k y hmem
  exact hall k y (Doc.get_of_mem b hb k y hmem)

/-- A merge that does not return a document has panicked. -/
theorem MergeBSONMaps_error_conflict (maps : List Doc) (e : MergeError)
    (h : MergeBSONMaps maps = .error e) : ∃ key v1 v2, e = .conflict key v1 v2 := by
  cases e with
  | conflict key v1 v2 => exact ⟨key, v1, v2, rfl⟩
  | outOfFuel => exact absurd h (MergeBSONMaps_ne_outOfFuel maps)

/-- C1: two documents sharing a key whose two values are neither both nested
documents nor both sequences of documents make `MergeBSONMaps` panic: the outcome is
the conflict error, never a document. -/
theorem MergeBSONMaps_incompatible_panics (a b : Doc) (k : String) (x y : Value)
    (ha : a.WF) (hb : b.WF) (hx : a.get k = some x) (hy : b.get k = some y)
    (hdoc : ¬ (x.isDoc = true ∧ y.isDoc = true))
    (hdocs : ¬ (x.isDocs = true ∧ y.isDocs = true)) :
    (∃ key v1 v2, MergeBSONMaps [a, b] = .error (.conflict key v1 v2)) ∧
      ∀ r, MergeBSONMaps [a, b] ≠ .ok r := by
  have hno : ∀ r, MergeBSONMaps [a, b] ≠ .ok r := by
    intro r hr
    obtain ⟨v, hv, _⟩ := (MergeBSONMaps_pair_get a b r ha hb hr k).2 y hy
    rw [hx] at hv
    cases x <;> cases y <;> simp [mergeValue, Value.isDoc, Value.isDocs] at hv hdoc hdocs
  refine ⟨?_, hno⟩
  cases h : MergeBSONMaps [a, b] with
  | ok r => exact absurd h (hno r)
  | error e =>
    obtain ⟨key, v1, v2, he⟩ := MergeBSONMaps_error_conflict _ e h
    exact ⟨key, v1, v2, by rw [he]⟩

/-- Witness of C1: a scalar against a map under the key `cid`. -/
theorem MergeBSONMaps_incompatible_panics_witness :
    ∃ key v1 v2, MergeBSONMaps [[("cid", .int 3)], [("cid", .doc [("n", .int 3)])]]
      = .error (.conflict key v1 v2) :=
  (MergeBSONMaps_incompatible_panics [("cid", .int 3)] [("cid", .doc [("n", .int 3)])]
    "cid" (.int 3) (.doc [("n", .int 3)]) (by decide) (by decide) rfl rfl
    (by decide) (by decide)).1

/-- C2: for two documents sharing no top-level key, `MergeBSONMaps` returns in both
orders, the two results hold the same keys with the same values (they are equal as
maps), and the result is the union of the two documents with every value unchanged. -/
theorem MergeBSONMaps_disjoint (a b : Doc) (ha : a.WF) (hb : b.WF)
    (hdis : ∀ k, a.get k = none ∨ b.get k = none) :
    MergeBSONMaps [a, b] = .ok (a ++ b) ∧ MergeBSONMaps [b, a] = .ok (b ++ a) ∧
      (a ++ b).Perm (b ++ a) ∧ Doc.WF (a ++ b) ∧
      (∀ k, Doc.get (a ++ b) k = Doc.get (b ++ a) k) ∧
      (∀ k v, Doc.get (a ++ b) k = some v ↔ (a.get k = some v ∨ b.get k = some v)) := by
  have hab : ∀ k, k ∈ b.keys → a.get k = none := by
    intro k hk
    rcases hdis k with h | h
    · exact h
    · exact absurd hk ((Doc.get_eq_none_iff b k).mp h)
  have hba : ∀ k, k ∈ a.keys → b.get k = none := by
    intro k hk
    rcases hdis k with h | h
    · exact absurd hk ((Doc.get_eq_none_iff a k).mp h)
    · exact h
  refine ⟨?_, ?_, List.perm_append_comm, ?_, ?_, ?_⟩
  · rw [MergeBSONMaps_pair a b ha]
    exact mergeMap_disjoint _ b a hb hab
  · rw [MergeBSONMaps_pair b a hb]
    exact mergeMap_disjoint _ a b ha hba
  · unfold Doc.WF Doc.keys
    rw [List.map_append]
    refine List.Nodup.append ha hb ?_
    intro k hk1 hk2
    exact (Doc.get_eq_none_iff a k).mp (hab k hk2) hk1
  · intro k
    rw [Doc.get_append, Doc.get_append]
    rcases hdis k with h | h <;> rw [h] <;> cases b.get k <;> cases a.get k <;> simp_all
  · intro k v
    rw [Doc.get_append]
    rcases hdis k with h | h <;> rw [h] <;> cases a.get k <;> simp_all

/-- Witness of C2: the two partial updates of the specification's scenario. -/
theorem MergeBSONMaps_disjoint_witness :
    MergeBSONMaps [[("$set", .doc [("blacklisted", .bool true)])],
        [("$push", .doc [("dat", .doc [("$each", .docs [[("ips", .strs ["1.2.3.4"])]])])])]]
      = .ok [("$set", .doc [("blacklisted", .bool true)]),
        ("$push", .doc [("dat", .doc [("$each", .docs [[("ips", .strs ["1.2.3.4"])]])])])] :=
  (MergeBSONMaps_disjoint [("$set", .doc [("blacklisted", .bool true)])]
    [("$push", .doc [("dat", .doc [("$each", .docs [[("ips", .strs ["1.2.3.4"])]])])])]
    (by decide) (by decide)
    (fun k => if h : "$set" = k then Or.inr (by subst h; rfl)
      else Or.inl (by simp [Doc.get, h]))).1


/-- C3: where both documents hold a sequence of documents under `k`, the merged
document holds under `k` the first sequence followed by the second, of length the sum
of the two lengths; the merge does return when `k` is the only shared key, and when it
does not return it has panicked. -/
theorem MergeBSONMaps_sequences_concat (a b : Doc) (k : String) (sa sb : List Doc)
    (ha : a.WF) (hb : b.WF) (hx : a.get k = some (.docs sa)) (hy : b.get k = some (.docs sb)) :
    (∀ r, MergeBSONMaps [a, b] = .ok r →
        r.get k = some (.docs (sa ++ sb)) ∧ (sa ++ sb).length = sa.length + sb.length) ∧
      ((∀ j, j ≠ k → a.get j = none ∨ b.get j = none) → ∃ r, MergeBSONMaps [a, b] = .ok r) ∧
      (∀ e, MergeBSONMaps [a, b] = .error e → ∃ key v1 v2, e = .conflict key v1 v2) := by
  refine ⟨?_, ?_, fun e he => MergeBSONMaps_error_conflict _ e he⟩
  · intro r hr
    obtain ⟨v, hv, hget⟩ := (MergeBSONMaps_pair_get a b r ha hb hr k).2 _ hy
    rw [hx] at hv
    simp only [mergeValue, Except.ok.injEq] at hv
    rw [hget, ← hv]
    exact ⟨rfl, List.length_append _ _⟩
  · intro honly
    apply MergeBSONMaps_pair_ok a b ha hb
    intro j y hj
    by_cases hjk : j = k
    · subst hjk
      rw [hy] at hj
      cases hj
      rw [hx]
      exact ⟨_, rfl⟩
    · rcases honly j hjk with h | h
      · rw [h]; exact ⟨y, rfl⟩
      · rw [h] at hj; cases hj

/-- Witness of C3: two `dat` histories of one and two entries. -/
theorem MergeBSONMaps_sequences_concat_witness :
    Doc.get [("dat", .docs [[("cid", .int 1)], [("cid", .int 2)], [("cid", .int 3)]])] "dat"
        = some (.docs ([[("cid", .int 1)]] ++ [[("cid", .int 2)], [("cid", .int 3)]])) ∧
      ([[("cid", Value.int 1)]] ++ [[("cid", Value.int 2)], [("cid", Value.int 3)]]).length
        = [[("cid", Value.int 1)]].length + [[("cid", Value.int 2)], [("cid", Value.int 3)]].length :=
  (MergeBSONMaps_sequences_concat [("dat", .docs [[("cid", .int 1)]])]
    [("dat", .docs [[("cid", .int 2)], [("cid", .int 3)]])] "dat"
    [[("cid", .int 1)]] [[("cid", .int 2)], [("cid", .int 3)]]
    (by decide) (by decide) rfl rfl).1
    [("dat", .docs [[("cid", .int 1)], [("cid", .int 2)], [("cid", .int 3)]])] rfl

/-- C4: where both documents hold a nested document under `k`, the merged document
holds under `k` the merge of the two nested documents (and panics when that nested
merge panics); the nested merge is the deep union: a sub-key of one side only keeps its
value, a sub-key of both sides is merged by the same rules one level down. -/
theorem MergeBSONMaps_nested (a b : Doc) (k : String) (c d : Doc)
    (ha : a.WF) (hb : b.WF) (hc : c.WF) (hd : d.WF)
    (hx : a.get k = some (.doc c)) (hy : b.get k = some (.doc d)) :
    (∀ r, MergeBSONMaps [a, b] = .ok r →
        ∃ m, MergeBSONMaps [c, d] = .ok m ∧ r.get k = some (.doc m)) ∧
      (∀ e, MergeBSONMaps [c, d] = .error e →
        ∃ key v1 v2, MergeBSONMaps [a, b] = .error (.conflict key v1 v2)) ∧
      (∀ m, MergeBSONMaps [c, d] = .ok m →
        (∀ j, j ≠ k → a.get j = none ∨ b.get j = none) → ∃ r, MergeBSONMaps [a, b] = .ok r) ∧
      (∀ m, MergeBSONMaps [c, d] = .ok m → ∀ j,
        (d.get j = none → m.get j = c.get j) ∧
        (c.get j = none → m.get j = d.get j) ∧
        (∀ c1 d1, c.get j = some (.doc c1) → d.get j = some (.doc d1) →
          ∃ m1, MergeBSONMaps [c1, d1] = .ok m1 ∧ m.get j = some (.doc m1)) ∧
        (∀ s1 s2, c.get j = some (.docs s1) → d.get j = some (.docs s2) →
          m.get j = some (.docs (s1 ++ s2)))) := by
  have key : ∀ (a b : Doc) (k : String) (c d : Doc), a.WF → b.WF →
      a.get k = some (.doc c) → b.get k = some (.doc d) →
      ∀ r, MergeBSONMaps [a, b] = .ok r →
        ∃ m, MergeBSONMaps [c, d] = .ok m ∧ r.get k = some (.doc m) := by
    intro a b k c d ha hb hx hy r hr
    obtain ⟨v, hv, hget⟩ := (MergeBSONMaps_pair_get a b r ha hb hr k).2 _ hy
    rw [hx] at hv
    simp only [mergeValue] at hv
    cases hm : MergeBSONMaps [c, d] with
    | error e => simp [hm] at hv
    | ok m =>
      simp only [hm, Except.ok.injEq] at hv
      exact ⟨m, rfl, by rw [hget, ← hv]⟩
  refine ⟨key a b k c d ha hb hx hy, ?_, ?_, ?_⟩
  · intro e he
    cases h : MergeBSONMaps [a, b] with
    | ok r =>
      obtain ⟨m, hm, _⟩ := key a b k c d ha hb hx hy r h
      rw [he] at hm; cases hm
    | error e' =>
      obtain ⟨key', v1, v2, he'⟩ := MergeBSONMaps_error_conflict _ e' h
      exact ⟨key', v1, v2, by rw [he']⟩
  · intro m hm honly
    apply MergeBSONMaps_pair_ok a b ha hb
    intro j y hj
    by_cases hjk : j = k
    · subst hjk
      rw [hy] at hj
      cases hj
      rw [hx]
      simp only [mergeValue, hm]
      exact ⟨_, rfl⟩
    · rcases honly j hjk with h | h
      · rw [h]; exact ⟨y, rfl⟩
      · rw [h] at hj; cases hj
  · intro m hm j
    have hj := MergeBSONMaps_pair_get c d m hc hd hm j
    refine ⟨hj.1, ?_, ?_, ?_⟩
    · intro hcj
      cases hdj : d.get j with
      | none => rw [hj.1 hdj, hcj]
      | some y =>
        obtain ⟨v, hv, hget⟩ := hj.2 y hdj
        rw [hcj] at hv
        simp only [mergeValue, Except.ok.injEq] at hv
        rw [hget, hv]
    · intro c1 d1 hc1 hd1
      exact key c d j c1 d1 hc hd hc1 hd1 m hm
    · intro s1 s2 hs1 hs2
      obtain ⟨v, hv, hget⟩ := hj.2 _ hs2
      rw [hs1] at hv
      simp only [mergeValue, Except.ok.injEq] at hv
      rw [hget, hv]



/-- Witness of C4: the `$set` parts of the two updates of a hostname worker. -/
theorem MergeBSONMaps_nested_witness :
    ∃ m, MergeBSONMaps [[("cid", .int 3)], [("blacklisted", .bool true)]] = .ok m ∧
      Doc.get [("$set", .doc [("cid", .int 3), ("blacklisted", .bool true)])] "$set"
        = some (.doc m) :=
  (MergeBSONMaps_nested [("$set", .doc [("cid", .int 3)])]
    [("$set", .doc [("blacklisted", .bool true)])] "$set"
    [("cid", .int 3)] [("blacklisted", .bool true)]
    (by decide) (by decide) (by decide) (by decide) rfl rfl).1
    [("$set", .doc [("cid", .int 3), ("blacklisted", .bool true)])] rfl

/-! ## The bulk writer: one change -/

/-- The size estimate does not depend on the scratch buffer handed in. -/
theorem BulkChange.Size_snd (marshal : Value → List Nat) (m : BulkChange) (buffer : List Nat) :
    (m.Size marshal buffer).2 = (m.Size marshal []).2 := by
  unfold BulkChange.Size
  cases m.Selector <;> cases m.Update <;> simp

theorem processChange_lengths (w : MgoBulkWriter) (marshal : Value → List Nat)
    (tgtColl : String) (st : WorkerState) (change : BulkChange) (d : String) :
    (processChange w marshal tgtColl st change).bulkBufferLengths d =
      if d = tgtColl then
        (if st.bulkBufferLengths tgtColl ≥ w.maxBulkCount ∨
            st.bulkBufferSizes tgtColl + (change.Size marshal []).2 ≥ w.maxBulkSize
          then 1 else st.bulkBufferLengths tgtColl + 1)
      else st.bulkBufferLengths d := by
  have hs := BulkChange.Size_snd marshal change st.sizeBuffer
  simp only [processChange, hs]
  by_cases hc : st.bulkBufferLengths tgtColl ≥ w.maxBulkCount ∨
      st.bulkBufferSizes tgtColl + (change.Size marshal []).2 ≥ w.maxBulkSize <;>
    by_cases hd : d = tgtColl <;>
    simp [hc, hd, resetCounters, Function.update]

theorem processChange_sizes (w : MgoBulkWriter) (marshal : Value → List Nat)
    (tgtColl : String) (st : WorkerState) (change : BulkChange) (d : String) :
    (processChange w marshal tgtColl st change).bulkBufferSizes d =
      if d = tgtColl then
        (if st.bulkBufferLengths tgtColl ≥ w.maxBulkCount ∨
            st.bulkBufferSizes tgtColl + (change.Size marshal []).2 ≥ w.maxBulkSize
          then (change.Size marshal []).2
          else st.bulkBufferSizes tgtColl + (change.Size marshal []).2)
      else st.bulkBufferSizes d := by
  have hs := BulkChange.Size_snd marshal change st.sizeBuffer
  simp only [processChange, hs]
  by_cases hc : st.bulkBufferLengths tgtColl ≥ w.maxBulkCount ∨
      st.bulkBufferSizes tgtColl + (change.Size marshal []).2 ≥ w.maxBulkSize <;>
    by_cases hd : d = tgtColl <;>
    simp [hc, hd, resetCounters, Function.update]


theorem processChange_store (w : MgoBulkWriter) (marshal : Value → List Nat)
    (tgtColl : String) (st : WorkerState) (change : BulkChange) :
    (processChange w marshal tgtColl st change).store =
        st.store ++ change.Apply.map (fun op => (tgtColl, op)) ∧
      (processChange w marshal tgtColl st change).applied = st.applied ++ [(tgtColl, change)] ∧
      (processChange w marshal tgtColl st change).bulkBuffers = st.bulkBuffers := by
  simp only [processChange]
  split_ifs <;> simp [resetCounters]

/-! ## The bulk writer: the loops as one sequence of changes -/

theorem SameCounters.refl (a : WorkerState) : SameCounters a a :=
  ⟨rfl, rfl, rfl, rfl, rfl, rfl⟩

theorem processChange_same (w : MgoBulkWriter) (marshal : Value → List Nat)
    (tgtColl : String) (a b : WorkerState) (change : BulkChange) (h : SameCounters a b) :
    SameCounters (processChange w marshal tgtColl a change)
      (processChange w marshal tgtColl b change) := by
  obtain ⟨h1, h2, h3, h4, h5, h6⟩ := h
  simp only [SameCounters, processChange, h1, h2, h3, h4, h5, h6]
  split_ifs <;> simp [resetCounters, h1, h2, h3, h4, h5, h6]

theorem processEvents_append (w : MgoBulkWriter) (marshal : Value → List Nat)
    (st : WorkerState) (p q : List (String × BulkChange)) :
    processEvents w marshal st (p ++ q) = processEvents w marshal (processEvents w marshal st p) q := by
  simp [processEvents, List.foldl_append]

theorem processChanges_same (w : MgoBulkWriter) (marshal : Value → List Nat) (tgtColl : String)
    (changes : List BulkChange) :
    ∀ a b : WorkerState, SameCounters a b →
      SameCounters (changes.foldl (processChange w marshal tgtColl) a)
        (processEvents w marshal b (changes.map (fun c => (tgtColl, c)))) := by
  induction changes with
  | nil => intro a b h; exact h
  | cons c rest ih =>
    intro a b h
    simp only [List.foldl_cons, List.map_cons, processEvents]
    exact ih _ _ (processChange_same w marshal tgtColl a b c h)

theorem processData_same (w : MgoBulkWriter) (marshal : Value → List Nat) (data : BulkChanges) :
    ∀ a b : WorkerState, SameCounters a b →
      SameCounters (processData w marshal a data)
        (processEvents w marshal b
          (data.flatMap (fun entry => entry.2.map (fun c => (entry.1, c))))) := by
  induction data with
  | nil => intro a b h; exact h
  | cons entry rest ih =>
    intro a b h
    simp only [processData, List.foldl_cons, List.flatMap_cons, processEvents_append]
    apply ih
    unfold processColl
    apply processChanges_same
    split_ifs
    · exact h
    · exact h

/-- The three nested loops process the changes one after the other, in the order
`changesInOrder`; the handle map plays no part in the counters. -/
theorem receiveLoop_same (w : MgoBulkWriter) (marshal : Value → List Nat)
    (input : List BulkChanges) :
    ∀ a b : WorkerState, SameCounters a b →
      SameCounters (receiveLoop w marshal a input)
        (processEvents w marshal b (changesInOrder input)) := by
  induction input with
  | nil => intro a b h; exact h
  | cons data rest ih =>
    intro a b h
    simp only [receiveLoop, List.foldl_cons, changesInOrder, List.flatMap_cons,
      processEvents_append]
    exact ih _ _ (processData_same w marshal data a b h)

/-- The count bound is kept by every change. -/
theorem processEvents_lengths_le (w : MgoBulkWriter) (marshal : Value → List Nat)
    (h : 1 ≤ w.maxBulkCount) (evs : List (String × BulkChange)) :
    ∀ st : WorkerState, (∀ d, st.bulkBufferLengths d ≤ w.maxBulkCount) →
      ∀ d, (processEvents w marshal st evs).bulkBufferLengths d ≤ w.maxBulkCount := by
  induction evs with
  | nil => intro st hst d; exact hst d
  | cons e rest ih =>
    intro st hst d
    simp only [processEvents, List.foldl_cons]
    apply ih
    intro d'
    rw [processChange_lengths]
    have := hst e.1
    have := hst d'
    split_ifs <;> omega

theorem BulkChange.Size_nonneg (marshal : Value → List Nat) (m : BulkChange)
    (buffer : List Nat) : 0 ≤ (m.Size marshal buffer).2 := by
  unfold BulkChange.Size
  cases m.Selector <;> cases m.Update <;> simp
  omega

/-- The size counters, sums of byte lengths, are never negative. -/
theorem processEvents_sizes_nonneg (w : MgoBulkWriter) (marshal : Value → List Nat)
    (evs : List (String × BulkChange)) :
    ∀ st : WorkerState, (∀ d, 0 ≤ st.bulkBufferSizes d) →
      ∀ d, 0 ≤ (processEvents w marshal st evs).bulkBufferSizes d := by
  induction evs with
  | nil => intro st hst d; exact hst d
  | cons e rest ih =>
    intro st hst d
    simp only [processEvents, List.foldl_cons]
    apply ih
    intro d'
    rw [processChange_sizes]
    have := hst e.1
    have := hst d'
    have := BulkChange.Size_nonneg marshal e.2 []
    split_ifs <;> omega

/-- C5: with `maxCount ≥ 1`, for every sequence of received ChangeSets and every
destination, the count of the destination is at most `maxCount` after each change
processed by the worker loop (after every initial segment of the changes in processing
order), and so when the loop ends. -/
theorem count_le_maxCount (w : MgoBulkWriter) (marshal : Value → List Nat)
    (h : 1 ≤ w.maxBulkCount) (input : List BulkChanges) (d : String) :
    (∀ p, p <+: changesInOrder input →
        (processEvents w marshal initState p).bulkBufferLengths d ≤ w.maxBulkCount) ∧
      (receiveLoop w marshal initState input).bulkBufferLengths d ≤ w.maxBulkCount := by
  have h0 : ∀ d, initState.bulkBufferLengths d ≤ w.maxBulkCount := by
    intro d; simp only [initState]; omega
  refine ⟨fun p _ => processEvents_lengths_le w marshal h p initState h0 d, ?_⟩
  rw [(receiveLoop_same w marshal input _ _ (SameCounters.refl initState)).2.1]
  exact processEvents_lengths_le w marshal h _ initState h0 d


/-- Witness of C5: two changes for `hosts` with `maxCount = 1`. -/
theorem count_le_maxCount_witness :
    (1 : Int) ≤ 1 ∧
      (receiveLoop { maxBulkCount := 1, maxBulkSize := 15000000 } bsonMarshal initState
        [[("hosts", [hostsChange, hostsChange])]]).bulkBufferLengths "hosts" ≤ 1 :=
  ⟨by decide, (count_le_maxCount { maxBulkCount := 1, maxBulkSize := 15000000 } bsonMarshal
    (by decide) [[("hosts", [hostsChange, hostsChange])]] "hosts").2⟩

/-- C6, counterexample: with `maxSize = 50`, after the single 75-byte change of the
scenario has been buffered the accumulated size of `hosts` is 75, not below 50. -/
theorem size_below_maxSize_counterexample :
    ¬ ((receiveLoop { maxBulkCount := 500, maxBulkSize := 50 } bsonMarshal initState
        [[("hosts", [hostsChange])]]).bulkBufferSizes "hosts" < 50) := by
  decide

/-- C6, amended: after a change for `d` has been buffered, the accumulated size of `d`
is strictly below `maxSize`, unless that change alone is at least `maxSize`; then the
buffer was reset first and holds exactly that change (count 1, size its estimate). -/
theorem size_after_change (w : MgoBulkWriter) (marshal : Value → List Nat)
    (p : List (String × BulkChange)) (d : String) (change : BulkChange) :
    ((change.Size marshal []).2 < w.maxBulkSize →
        (processEvents w marshal initState (p ++ [(d, change)])).bulkBufferSizes d
          < w.maxBulkSize) ∧
      (w.maxBulkSize ≤ (change.Size marshal []).2 →
        (processEvents w marshal initState (p ++ [(d, change)])).bulkBufferSizes d
          = (change.Size marshal []).2 ∧
        (processEvents w marshal initState (p ++ [(d, change)])).bulkBufferLengths d = 1) := by
  have hnn := processEvents_sizes_nonneg w marshal p initState
    (fun d => by simp [initState]) d
  rw [processEvents_append]
  simp only [processEvents, List.foldl_cons, List.foldl_nil] at hnn ⊢
  rw [processChange_sizes, processChange_lengths]
  simp only [if_true]
  constructor
  · intro hs
    split_ifs with hc
    · exact hs
    · omega
  · intro hs
    split_ifs with hc
    · exact ⟨rfl, rfl⟩
    · omega

/-- C7: processing one change of estimated size `s` for `tgtColl` resets the counters of
`tgtColl` to zero first when `count ≥ maxCount` or `size + s ≥ maxSize`, then adds the
change: the counters become `(1, s)` in that case and `(count + 1, size + s)` otherwise.
The counters of every other destination are unchanged. -/
theorem processChange_counters (w : MgoBulkWriter) (marshal : Value → List Nat)
    (tgtColl : String) (st : WorkerState) (change : BulkChange) :
    ((processChange w marshal tgtColl st change).bulkBufferLengths tgtColl,
        (processChange w marshal tgtColl st change).bulkBufferSizes tgtColl) =
      (if st.bulkBufferLengths tgtColl ≥ w.maxBulkCount ∨
          st.bulkBufferSizes tgtColl + (change.Size marshal st.sizeBuffer).2 ≥ w.maxBulkSize
        then (1, (change.Size marshal st.sizeBuffer).2)
        else (st.bulkBufferLengths tgtColl + 1,
          st.bulkBufferSizes tgtColl + (change.Size marshal st.sizeBuffer).2)) ∧
      ∀ d, d ≠ tgtColl →
        (processChange w marshal tgtColl st change).bulkBufferLengths d = st.bulkBufferLengths d ∧
        (processChange w marshal tgtColl st change).bulkBufferSizes d = st.bulkBufferSizes d := by
  constructor
  · rw [processChange_lengths, processChange_sizes, BulkChange.Size_snd marshal change st.sizeBuffer]
    simp only [if_true]
    split_ifs <;> rfl
  · intro d hd
    rw [processChange_lengths, processChange_sizes]
    simp [hd]


/-! ## The bulk writer: what is applied -/

theorem processEvents_applied (w : MgoBulkWriter) (marshal : Value → List Nat)
    (evs : List (String × BulkChange)) :
    ∀ st : WorkerState,
      (processEvents w marshal st evs).applied = st.applied ++ evs ∧
      (processEvents w marshal st evs).store =
        st.store ++ evs.flatMap (fun e => e.2.Apply.map (fun op => (e.1, op))) := by
  induction evs with
  | nil => intro st; simp [processEvents]
  | cons e rest ih =>
    intro st
    obtain ⟨h1, h2, _⟩ := processChange_store w marshal e.1 st e.2
    have := ih (processChange w marshal e.1 st e.2)
    simp only [processEvents, List.foldl_cons] at this ⊢
    rw [this.1, this.2, h1, h2]
    simp

theorem changesFor_eq (d : String) (data : BulkChanges) (h : (data.map Prod.fst).Nodup) :
    changesFor d data =
      ((data.flatMap (fun entry => entry.2.map (fun c => (entry.1, c)))).filter
        (fun e => e.1 == d)).map Prod.snd := by
  induction data with
  | nil => simp [changesFor]
  | cons entry rest ih =>
    obtain ⟨k, cs⟩ := entry
    simp only [List.map_cons, List.nodup_cons] at h
    simp only [List.flatMap_cons, List.filter_append, List.map_append]
    rw [← ih h.2]
    by_cases hk : k = d
    · subst hk
      have hrest : changesFor k rest = [] := by
        unfold changesFor
        have : List.lookup k rest = none := by
          rw [List.lookup_eq_none_iff]
          intro p hp
          simp only [bne_iff_ne, ne_eq]
          intro hpk
          apply h.1
          rw [List.mem_map]
          exact ⟨p, hp, hpk.symm⟩
        simp [this]
      rw [hrest]
      simp [changesFor, List.lookup_cons, List.filter_map, Function.comp_def]
    · have hkd : (d == k) = false := by simpa using fun h => hk h.symm
      simp [changesFor, List.lookup_cons, hkd, List.filter_map, Function.comp_def, hk]

theorem filter_changesInOrder (d : String) (input : List BulkChanges)
    (hwf : ∀ data, data ∈ input → (data.map Prod.fst).Nodup) :
    ((changesInOrder input).filter (fun e => e.1 == d)).map Prod.snd =
      input.flatMap (changesFor d) := by
  induction input with
  | nil => simp [changesInOrder]
  | cons data rest ih =>
    simp only [changesInOrder, List.flatMap_cons, List.filter_append, List.map_append]
    rw [changesFor_eq d data (hwf data (List.mem_cons_self _ _))]
    congr 1
    exact ih (fun data hd => hwf data (List.mem_cons_of_mem _ hd))

theorem filter_store (d : String) (evs : List (String × BulkChange)) :
    ((evs.flatMap (fun e => e.2.Apply.map (fun op => (e.1, op)))).filter
        (fun e => e.1 == d)).map Prod.snd =
      ((evs.filter (fun e => e.1 == d)).map Prod.snd).flatMap BulkChange.Apply := by
  induction evs with
  | nil => simp
  | cons e rest ih =>
    simp only [List.flatMap_cons, List.filter_append, List.map_append, ih]
    by_cases he : e.1 = d
    · simp [List.filter_cons, he, List.filter_map, Function.comp_def]
    · simp [List.filter_cons, he, List.filter_map, Function.comp_def]

/-- C8: for every sequence of ChangeSets processed by the worker and every destination
`d`, the changes on which `Apply` is called for `d` are, in order, the concatenation of
the lists the ChangeSets hold for `d`, each change once; the operations issued on `d` are
those of these changes, in the same order. -/
theorem applied_in_submission_order (w : MgoBulkWriter) (marshal : Value → List Nat)
    (input : List BulkChanges) (hwf : ∀ data, data ∈ input → (data.map Prod.fst).Nodup)
    (d : String) :
    (((receiveLoop w marshal initState input).applied.filter (fun e => e.1 == d)).map Prod.snd
        = input.flatMap (changesFor d)) ∧
      (((receiveLoop w marshal initState input).store.filter (fun e => e.1 == d)).map Prod.snd
        = (input.flatMap (changesFor d)).flatMap BulkChange.Apply) := by
  obtain ⟨_, _, _, h4, h5, _⟩ := receiveLoop_same w marshal input _ _ (SameCounters.refl initState)
  obtain ⟨ha, hs⟩ := processEvents_applied w marshal (changesInOrder input) initState
  rw [h4, h5, ha, hs]
  simp only [initState, List.nil_append]
  rw [filter_store, filter_changesInOrder d input hwf]
  exact ⟨rfl, rfl⟩

/-- Witness of C8: two ChangeSets, the second holding changes for two destinations. -/
theorem applied_in_submission_order_witness :
    ((receiveLoop NewBulkWriter bsonMarshal initState
        [[("hosts", [hostsChange])],
         [("uconn", [hostsChange]), ("hosts", [hostsRemoval])]]).applied.filter
          (fun e => e.1 == "hosts")).map Prod.snd
      = [hostsChange, hostsRemoval] :=
  (applied_in_submission_order NewBulkWriter bsonMarshal
    [[("hosts", [hostsChange])],
     [("uconn", [hostsChange]), ("hosts", [hostsRemoval])]]
    (by decide) "hosts").1

/-- C9: a change whose selector is nil makes `Apply` issue no operation, whatever its
payload and flags. -/
theorem Apply_nil_selector (payload : Option Value) (upsertFlag removeFlag selectAllFlag : Bool) :
    BulkChange.Apply ⟨none, payload, upsertFlag, removeFlag, selectAllFlag⟩ = [] := by
  simp [BulkChange.Apply]

/-- C10, counterexample: with `maxCount = 1`, after the worker has processed the single
change of the scenario on a fresh engine the counters of `hosts` are not both zero. -/
theorem immediate_flush_counterexample :
    ¬ ((receiveLoop { maxBulkCount := 1, maxBulkSize := 15000000 } bsonMarshal initState
          [[("hosts", [hostsChange])]]).bulkBufferLengths "hosts" = 0 ∧
        (receiveLoop { maxBulkCount := 1, maxBulkSize := 15000000 } bsonMarshal initState
          [[("hosts", [hostsChange])]]).bulkBufferSizes "hosts" = 0) := by
  decide

/-- C10, amended: with `maxCount = 1`, after the worker has processed the single change
of the scenario on a fresh engine the counters of `hosts` have not been reset: the count
is 1 and the size is the 75 bytes of the change, no reset block has run, and the
update-one with upsert of the change has already been issued on `hosts`; the counters are
zero only after the drain that follows the closing of the channel. -/
theorem single_change_counters_not_reset :
    (receiveLoop { maxBulkCount := 1, maxBulkSize := 15000000 } bsonMarshal initState
        [[("hosts", [hostsChange])]]).bulkBufferLengths "hosts" = 1 ∧
      (receiveLoop { maxBulkCount := 1, maxBulkSize := 15000000 } bsonMarshal initState
        [[("hosts", [hostsChange])]]).bulkBufferSizes "hosts" = 75 ∧
      (receiveLoop { maxBulkCount := 1, maxBulkSize := 15000000 } bsonMarshal initState
        [[("hosts", [hostsChange])]]).flushes = [] ∧
      (receiveLoop { maxBulkCount := 1, maxBulkSize := 15000000 } bsonMarshal initState
        [[("hosts", [hostsChange])]]).store =
        [("hosts", .UpdateOne (.doc [("ip", .str "10.0.0.1")])
          (.doc [("$push", .doc [("dat", .doc [("ip", .str "10.0.0.1"), ("cid", .int 3)])])])
          true)] ∧
      (MgoBulkWriter.Start { maxBulkCount := 1, maxBulkSize := 15000000 } bsonMarshal
        [[("hosts", [hostsChange])]]).bulkBufferLengths "hosts" = 0 ∧
      (MgoBulkWriter.Start { maxBulkCount := 1, maxBulkSize := 15000000 } bsonMarshal
        [[("hosts", [hostsChange])]]).bulkBufferSizes "hosts" = 0 :=
  ⟨by decide, by decide, by decide, rfl, by decide, by decide⟩

/-! ## The bulk writer: the drain -/

theorem resetCounters_fields (st : WorkerState) (t d : String) :
    (resetCounters st t).bulkBufferLengths d = (if d = t then 0 else st.bulkBufferLengths d) ∧
      (resetCounters st t).bulkBufferSizes d = (if d = t then 0 else st.bulkBufferSizes d) ∧
      (resetCounters st t).applied = st.applied ∧
      (resetCounters st t).flushes = st.flushes ++ [t] ∧
      (resetCounters st t).bulkBuffers = st.bulkBuffers := by
  by_cases h : d = t <;> simp [resetCounters, Function.update, h]

theorem foldl_resetCounters (keys : List String) :
    ∀ (st : WorkerState) (d : String),
      (keys.foldl resetCounters st).bulkBufferLengths d
          = (if d ∈ keys then 0 else st.bulkBufferLengths d) ∧
        (keys.foldl resetCounters st).bulkBufferSizes d
          = (if d ∈ keys then 0 else st.bulkBufferSizes d) ∧
        (keys.foldl resetCounters st).flushes = st.flushes ++ keys ∧
        (keys.foldl resetCounters st).applied = st.applied := by
  induction keys with
  | nil => intro st d; simp
  | cons t rest ih =>
    intro st d
    obtain ⟨h1, h2, h3, h4⟩ := ih (resetCounters st t) d
    obtain ⟨r1, r2, r3, r4, _⟩ := resetCounters_fields st t d
    simp only [List.foldl_cons, h1, h2, h3, h4, r1, r2, r3, r4, List.mem_cons]
    refine ⟨?_, ?_, by simp, trivial⟩
    · by_cases hr : d ∈ rest <;> by_cases ht : d = t <;> simp [hr, ht]
    · by_cases hr : d ∈ rest <;> by_cases ht : d = t <;> simp [hr, ht]

theorem foldl_processChange_bulkBuffers (w : MgoBulkWriter) (marshal : Value → List Nat)
    (t : String) (changes : List BulkChange) :
    ∀ st : WorkerState,
      (changes.foldl (processChange w marshal t) st).bulkBuffers = st.bulkBuffers := by
  induction changes with
  | nil => intro st; rfl
  | cons c rest ih =>
    intro st
    rw [List.foldl_cons, ih, (processChange_store w marshal t st c).2.2]

theorem processColl_bulkBuffers (w : MgoBulkWriter) (marshal : Value → List Nat)
    (st : WorkerState) (entry : String × List BulkChange) :
    (processColl w marshal st entry).bulkBuffers =
      if entry.1 ∈ st.bulkBuffers then st.bulkBuffers else st.bulkBuffers ++ [entry.1] := by
  unfold processColl
  rw [foldl_processChange_bulkBuffers]
  split_ifs <;> rfl

/-- The handle map keeps its keys, never holds one twice, and holds the key of every
entry visited. -/
theorem processData_bulkBuffers (w : MgoBulkWriter) (marshal : Value → List Nat)
    (data : BulkChanges) :
    ∀ st : WorkerState, st.bulkBuffers.Nodup →
      (processData w marshal st data).bulkBuffers.Nodup ∧
        (∀ d, d ∈ st.bulkBuffers → d ∈ (processData w marshal st data).bulkBuffers) ∧
        (∀ entry, entry ∈ data → entry.1 ∈ (processData w marshal st data).bulkBuffers) := by
  induction data with
  | nil => intro st h; exact ⟨h, fun d hd => hd, fun e he => by simp at he⟩
  | cons entry rest ih =>
    intro st h
    have hb := processColl_bulkBuffers w marshal st entry
    have hnd : (processColl w marshal st entry).bulkBuffers.Nodup := by
      rw [hb]
      split_ifs with hm
      · exact h
      · exact List.Nodup.append h (List.nodup_singleton _) (by simpa using hm)
    have hmono : ∀ d, d ∈ st.bulkBuffers → d ∈ (processColl w marshal st entry).bulkBuffers := by
      intro d hd; rw [hb]; split_ifs <;> simp [hd]
    have hself : entry.1 ∈ (processColl w marshal st entry).bulkBuffers := by
      rw [hb]; split_ifs with hm
      · exact hm
      · simp
    obtain ⟨i1, i2, i3⟩ := ih (processColl w marshal st entry) hnd
    simp only [processData, List.foldl_cons] at i1 i2 i3 ⊢
    refine ⟨i1, fun d hd => i2 d (hmono d hd), ?_⟩
    intro e he
    rcases List.mem_cons.mp he with h1 | h1
    · subst h1; exact i2 _ hself
    · exact i3 e h1

theorem receiveLoop_bulkBuffers (w : MgoBulkWriter) (marshal : Value → List Nat)
    (input : List BulkChanges) :
    ∀ st : WorkerState, st.bulkBuffers.Nodup →
      (receiveLoop w marshal st input).bulkBuffers.Nodup ∧
        (∀ d, d ∈ st.bulkBuffers → d ∈ (receiveLoop w marshal st input).bulkBuffers) ∧
        (∀ data entry, data ∈ input → entry ∈ data →
          entry.1 ∈ (receiveLoop w marshal st input).bulkBuffers) := by
  induction input with
  | nil => intro st h; exact ⟨h, fun d hd => hd, fun _ _ hd => by simp at hd⟩
  | cons data rest ih =>
    intro st h
    obtain ⟨p1, p2, p3⟩ := processData_bulkBuffers w marshal data st h
    obtain ⟨i1, i2, i3⟩ := ih (processData w marshal st data) p1
    simp only [receiveLoop, List.foldl_cons] at i1 i2 i3 ⊢
    refine ⟨i1, fun d hd => i2 d (p2 d hd), ?_⟩
    intro dt e hdt he
    rcases List.mem_cons.mp hdt with h1 | h1
    · subst h1; exact i2 _ (p3 e he)
    · exact i3 dt e h1 he

/-- C11: once the channel is closed and the drain has run, every destination that was a
key of a received ChangeSet (so every destination that received a change) has been
reset exactly once by the drain, after the resets of the receive loop, and its count and
its size are zero. -/
theorem drain_resets_each_destination (w : MgoBulkWriter) (marshal : Value → List Nat)
    (input : List BulkChanges) (d : String)
    (hd : ∃ data entry, data ∈ input ∧ entry ∈ data ∧ entry.1 = d) :
    (MgoBulkWriter.Start w marshal input).flushes =
        (receiveLoop w marshal initState input).flushes ++
          (receiveLoop w marshal initState input).bulkBuffers ∧
      (receiveLoop w marshal initState input).bulkBuffers.count d = 1 ∧
      (MgoBulkWriter.Start w marshal input).flushes.count d =
        (receiveLoop w marshal initState input).flushes.count d + 1 ∧
      (MgoBulkWriter.Start w marshal input).bulkBufferLengths d = 0 ∧
      (MgoBulkWriter.Start w marshal input).bulkBufferSizes d = 0 := by
  obtain ⟨data, entry, hdata, hentry, rfl⟩ := hd
  obtain ⟨hnd, _, hmem⟩ := receiveLoop_bulkBuffers w marshal input initState
    (by simp [initState])
  have hin := hmem data entry hdata hentry
  obtain ⟨h1, h2, h3, _⟩ := foldl_resetCounters
    (receiveLoop w marshal initState input).bulkBuffers
    (receiveLoop w marshal initState input) entry.1
  have hc : (receiveLoop w marshal initState input).bulkBuffers.count entry.1 = 1 :=
    List.count_eq_one_of_mem hnd hin
  simp only [MgoBulkWriter.Start, drain]
  refine ⟨h3, hc, ?_, ?_, ?_⟩
  · rw [h3, List.count_append, hc]
  · rw [h1]; simp [hin]
  · rw [h2]; simp [hin]

/-- Witness of C11: two ChangeSets for `hosts` and `uconn` with `maxCount = 1`. -/
theorem drain_resets_each_destination_witness :
    (MgoBulkWriter.Start { maxBulkCount := 1, maxBulkSize := 15000000 } bsonMarshal
        [[("hosts", [hostsChange, hostsChange])], [("uconn", [hostsChange])]]).flushes.count "hosts" =
        (receiveLoop { maxBulkCount := 1, maxBulkSize := 15000000 } bsonMarshal initState
          [[("hosts", [hostsChange, hostsChange])], [("uconn", [hostsChange])]]).flushes.count "hosts" + 1 ∧
      (MgoBulkWriter.Start { maxBulkCount := 1, maxBulkSize := 15000000 } bsonMarshal
        [[("hosts", [hostsChange, hostsChange])], [("uconn", [hostsChange])]]).bulkBufferLengths "hosts" = 0 ∧
      (MgoBulkWriter.Start { maxBulkCount := 1, maxBulkSize := 15000000 } bsonMarshal
        [[("hosts", [hostsChange, hostsChange])], [("uconn", [hostsChange])]]).bulkBufferSizes "hosts" = 0 :=
  (drain_resets_each_destination { maxBulkCount := 1, maxBulkSize := 15000000 } bsonMarshal
    [[("hosts", [hostsChange, hostsChange])], [("uconn", [hostsChange])]] "hosts"
    ⟨[("hosts", [hostsChange, hostsChange])], ("hosts", [hostsChange, hostsChange]),
      by simp, by simp, rfl⟩).2.2


/-! ## The bulk writer: count and size move together -/

theorem Synced_initState (marshal : Value → List Nat) (d : String) :
    Synced marshal initState d := by
  simp [Synced, initState, appliedTo]

theorem Synced_resetCounters (marshal : Value → List Nat) (st : WorkerState) (t d : String)
    (h : Synced marshal st d) : Synced marshal (resetCounters st t) d := by
  obtain ⟨r1, r2, r3, _, _⟩ := resetCounters_fields st t d
  unfold Synced appliedTo at h ⊢
  rw [r1, r2, r3]
  by_cases hd : d = t
  · simp [hd]
  · simpa [hd] using h

theorem appliedTo_processChange (w : MgoBulkWriter) (marshal : Value → List Nat)
    (t : String) (st : WorkerState) (change : BulkChange) (d : String) :
    appliedTo (processChange w marshal t st change) d =
      if d = t then appliedTo st d ++ [change] else appliedTo st d := by
  unfold appliedTo
  rw [(processChange_store w marshal t st change).2.1]
  by_cases hd : d = t
  · subst hd; simp [List.filter_append]
  · have : ¬ t = d := fun e => hd e.symm
    simp [List.filter_append, hd, this]

theorem Synced_processChange (w : MgoBulkWriter) (marshal : Value → List Nat)
    (t : String) (st : WorkerState) (change : BulkChange) (d : String)
    (h : Synced marshal st d) : Synced marshal (processChange w marshal t st change) d := by
  unfold Synced at h ⊢
  rw [processChange_lengths, processChange_sizes, appliedTo_processChange]
  obtain ⟨h1, h2, h3⟩ := h
  by_cases hd : d = t
  · subst hd
    simp only [if_true]
    split_ifs with hc
    · simp
    · have e : (st.bulkBufferLengths d + 1).toNat = (st.bulkBufferLengths d).toNat + 1 := by
        omega
      refine ⟨by omega, ?_, ?_⟩
      · rw [List.length_append, List.length_singleton]; omega
      · rw [e, List.reverse_append, List.reverse_singleton, List.singleton_append,
          List.take_succ_cons, List.map_cons, List.sum_cons, h3]
        ring
  · simp only [hd, if_false]
    exact ⟨h1, h2, h3⟩

theorem Synced_processEvents (w : MgoBulkWriter) (marshal : Value → List Nat)
    (evs : List (String × BulkChange)) (d : String) :
    ∀ st : WorkerState, Synced marshal st d → Synced marshal (processEvents w marshal st evs) d := by
  induction evs with
  | nil => intro st h; exact h
  | cons e rest ih =>
    intro st h
    simp only [processEvents, List.foldl_cons]
    exact ih _ (Synced_processChange w marshal e.1 st e.2 d h)

theorem Synced_of_same (marshal : Value → List Nat) (a b : WorkerState) (d : String)
    (hab : SameCounters a b) (h : Synced marshal b d) : Synced marshal a d := by
  obtain ⟨h1, h2, _, _, h5, _⟩ := hab
  unfold Synced appliedTo at h ⊢
  rw [h1, h2, h5]
  exact h

theorem Synced_foldl_reset (marshal : Value → List Nat) (keys : List String) (d : String) :
    ∀ st : WorkerState, Synced marshal st d → Synced marshal (keys.foldl resetCounters st) d := by
  induction keys with
  | nil => intro st h; exact h
  | cons t rest ih =>
    intro st h
    exact ih _ (Synced_resetCounters marshal st t d h)

/-- C16: at every point of the worker and for every destination `d`, count and size are
synchronised (`Synced`: the size is the sum of the size estimates of the last `count`
changes applied for `d`): after every initial segment of the changes in processing
order, after a reset block run at such a point, at the end of the receive loop, after
every initial segment of the drain and at the end of the worker.  In a synchronised state
a count of zero has a size of zero, and a reset block sets both counters of its
destination to zero and leaves the counters of every other destination alone. -/
theorem count_size_synchronised (w : MgoBulkWriter) (marshal : Value → List Nat)
    (input : List BulkChanges) (d : String) :
    (∀ p, p <+: changesInOrder input →
        Synced marshal (processEvents w marshal initState p) d ∧
        ∀ t, Synced marshal (resetCounters (processEvents w marshal initState p) t) d) ∧
      Synced marshal (receiveLoop w marshal initState input) d ∧
      (∀ n, Synced marshal
        (((receiveLoop w marshal initState input).bulkBuffers.take n).foldl resetCounters
          (receiveLoop w marshal initState input)) d) ∧
      Synced marshal (MgoBulkWriter.Start w marshal input) d ∧
      (∀ st, Synced marshal st d → st.bulkBufferLengths d = 0 → st.bulkBufferSizes d = 0) ∧
      (∀ st t, (resetCounters st t).bulkBufferLengths t = 0 ∧
        (resetCounters st t).bulkBufferSizes t = 0 ∧
        ∀ j, j ≠ t → (resetCounters st t).bulkBufferLengths j = st.bulkBufferLengths j ∧
          (resetCounters st t).bulkBufferSizes j = st.bulkBufferSizes j) := by
  have hev : ∀ p, Synced marshal (processEvents w marshal initState p) d :=
    fun p => Synced_processEvents w marshal p d initState (Synced_initState marshal d)
  have hloop : Synced marshal (receiveLoop w marshal initState input) d :=
    Synced_of_same marshal _ _ d
      (receiveLoop_same w marshal input _ _ (SameCounters.refl initState)) (hev _)
  refine ⟨fun p _ => ⟨hev p, fun t => Synced_resetCounters marshal _ t d (hev p)⟩, hloop,
    fun n => Synced_foldl_reset marshal _ d _ hloop,
    Synced_foldl_reset marshal _ d _ hloop, ?_, ?_⟩
  · intro st hs h0
    obtain ⟨_, _, h3⟩ := hs
    rw [h3, h0]
    simp
  · intro st t
    obtain ⟨r1, r2, _⟩ := resetCounters_fields st t t
    refine ⟨by simpa using r1, by simpa using r2, ?_⟩
    intro j hj
    obtain ⟨j1, j2, _⟩ := resetCounters_fields st t j
    exact ⟨by simpa [hj] using j1, by simpa [hj] using j2⟩


/-! ## Merging three maps -/

theorem MergeBSONMaps_triple (a b c : Doc) (ha : a.WF) :
    MergeBSONMaps [a, b, c] =
      match mergeMap MergeBSONMaps a b with
      | .ok ab => mergeMap MergeBSONMaps ab c
      | .error e => .error e := by
  rw [MergeBSONMaps_unfold]
  simp only [mergeMaps, mergeMap_nil MergeBSONMaps a ha]
  cases mergeMap MergeBSONMaps a b with
  | error e => rfl
  | ok ab =>
    simp only
    cases mergeMap MergeBSONMaps ab c <;> rfl

theorem Doc.WF_append (a b : Doc) (ha : a.WF) (hb : b.WF)
    (hdis : ∀ k, a.get k = none ∨ b.get k = none) : Doc.WF (a ++ b) := by
  unfold Doc.WF Doc.keys
  rw [List.map_append]
  refine List.Nodup.append ha hb ?_
  intro k hk1 hk2
  rcases hdis k with h | h
  · exact (Doc.get_eq_none_iff a k).mp h hk1
  · exact (Doc.get_eq_none_iff b k).mp h hk2

theorem Doc.get_append_none (a b : Doc) (k : String) (ha : a.get k = none)
    (hb : b.get k = none) : Doc.get (a ++ b) k = none := by
  rw [Doc.get_append, ha, hb]; rfl

/-- C15: for three documents with pairwise disjoint top-level keys, merging the first two
and then the third, merging the first with the merge of the last two, and the variadic
merge of the three all return the same document, the three documents one after the
other. -/
theorem MergeBSONMaps_assoc_disjoint (a b c : Doc) (ha : a.WF) (hb : b.WF) (hc : c.WF)
    (hab : ∀ k, a.get k = none ∨ b.get k = none)
    (hac : ∀ k, a.get k = none ∨ c.get k = none)
    (hbc : ∀ k, b.get k = none ∨ c.get k = none) :
    MergeBSONMaps [a, b, c] = .ok (a ++ b ++ c) ∧
      (∃ ab, MergeBSONMaps [a, b] = .ok ab ∧ MergeBSONMaps [ab, c] = .ok (a ++ b ++ c)) ∧
      (∃ bc, MergeBSONMaps [b, c] = .ok bc ∧ MergeBSONMaps [a, bc] = .ok (a ++ b ++ c)) := by
  have kb : ∀ k, k ∈ b.keys → a.get k = none := by
    intro k hk
    rcases hab k with h | h
    · exact h
    · exact absurd hk ((Doc.get_eq_none_iff b k).mp h)
  have kc : ∀ k, k ∈ c.keys → a.get k = none ∧ b.get k = none := by
    intro k hk
    constructor
    · rcases hac k with h | h
      · exact h
      · exact absurd hk ((Doc.get_eq_none_iff c k).mp h)
    · rcases hbc k with h | h
      · exact h
      · exact absurd hk ((Doc.get_eq_none_iff c k).mp h)
  have h1 : mergeMap MergeBSONMaps a b = .ok (a ++ b) := mergeMap_disjoint _ b a hb kb
  have h2 : mergeMap MergeBSONMaps (a ++ b) c = .ok (a ++ b ++ c) :=
    mergeMap_disjoint _ c (a ++ b) hc
      (fun k hk => Doc.get_append_none a b k (kc k hk).1 (kc k hk).2)
  have h3 : mergeMap MergeBSONMaps b c = .ok (b ++ c) :=
    mergeMap_disjoint _ c b hc (fun k hk => (kc k hk).2)
  have h4 : mergeMap MergeBSONMaps a (b ++ c) = .ok (a ++ (b ++ c)) := by
    apply mergeMap_disjoint _ (b ++ c) a (Doc.WF_append b c hb hc hbc)
    intro k hk
    simp only [Doc.keys, List.map_append, List.mem_append] at hk
    rcases hk with hk | hk
    · exact kb k hk
    · exact (kc k hk).1
  refine ⟨?_, ⟨a ++ b, ?_, ?_⟩, ⟨b ++ c, ?_, ?_⟩⟩
  · rw [MergeBSONMaps_triple a b c ha, h1]; exact h2
  · rw [MergeBSONMaps_pair a b ha]; exact h1
  · rw [MergeBSONMaps_pair (a ++ b) c (Doc.WF_append a b ha hb hab)]; exact h2
  · rw [MergeBSONMaps_pair b c hb]; exact h3
  · rw [MergeBSONMaps_pair a (b ++ c) ha, h4, List.append_assoc]

/-- Witness of C15: a selector part, a `$set` part and a `$push` part. -/
theorem MergeBSONMaps_assoc_disjoint_witness :
    MergeBSONMaps [[("host", .str "a.example")], [("$set", .doc [("cid", .int 3)])],
        [("$push", .doc [("dat", .docs [[("cid", .int 3)]])])]]
      = .ok ([("host", .str "a.example")] ++ [("$set", .doc [("cid", .int 3)])] ++
          [("$push", .doc [("dat", .docs [[("cid", .int 3)]])])]) :=
  (MergeBSONMaps_assoc_disjoint [("host", .str "a.example")] [("$set", .doc [("cid", .int 3)])]
    [("$push", .doc [("dat", .docs [[("cid", .int 3)]])])]
    (by decide) (by decide) (by decide)
    (fun k => if h : "host" = k then Or.inr (by subst h; rfl) else Or.inl (by simp [Doc.get, h]))
    (fun k => if h : "host" = k then Or.inr (by subst h; rfl) else Or.inl (by simp [Doc.get, h]))
    (fun k => if h : "$set" = k then Or.inr (by subst h; rfl) else Or.inl (by simp [Doc.get, h]))).1

/-! ## Start-up of the workers -/

theorem foldl_started (n : Nat) (st : Started) :
    (List.range n).foldl
        (fun st _ => { analyzerWorkers := st.analyzerWorkers + 1,
                       writerWorkers := st.writerWorkers + 1 : Started }) st
      = { analyzerWorkers := st.analyzerWorkers + n, writerWorkers := st.writerWorkers + n } := by
  induction n generalizing st with
  | zero => simp
  | succ n ih =>
    rw [List.range_succ, List.foldl_append, ih]
    simp [Nat.add_assoc]

/-- C14, counterexample: on a machine of 8 CPUs the start-up loop starts 4 workers on the
writer, not one. -/
theorem one_writer_worker_counterexample :
    ¬ ((startWorkers max 8).writerWorkers = 1) := by
  decide

/-- C14, amended: with `util.Max` the larger of its arguments, the start-up loop of a
domain `Upsert` starts `max(1, NumCPU/2)` workers on the writer, as many as analyzer
workers; that is exactly one worker exactly on machines of fewer than 4 CPUs. -/
theorem writer_workers_started (utilMax : Int → Int → Int)
    (hmax : ∀ x y, utilMax x y = max x y) (numCPU : Nat) :
    (startWorkers utilMax numCPU).writerWorkers = max 1 (numCPU / 2) ∧
      (startWorkers utilMax numCPU).analyzerWorkers = (startWorkers utilMax numCPU).writerWorkers ∧
      ((startWorkers utilMax numCPU).writerWorkers = 1 ↔ numCPU < 4) := by
  have h : startWorkers utilMax numCPU =
      { analyzerWorkers := max 1 (numCPU / 2), writerWorkers := max 1 (numCPU / 2) } := by
    unfold startWorkers
    rw [foldl_started, hmax]
    have : (max (1 : Int) ((numCPU : Int) / 2)).toNat = max 1 (numCPU / 2) := by omega
    simp [this]
  rw [h]
  refine ⟨rfl, rfl, ?_⟩
  simp only
  omega

/-- Witness of C14, amended: a machine of 8 CPUs. -/
theorem writer_workers_started_witness :
    (startWorkers max 8).writerWorkers = max 1 (8 / 2) :=
  (writer_workers_started max (fun _ _ => rfl) 8).1


/-! ## Apply and Size -/

/-- C17, counterexample: a change with selector and payload and no flag makes `Apply`
issue an update-one without upsert, which is none of the four listed modes. -/
theorem Apply_listed_modes_counterexample :
    ¬ (plainChange.Apply.all StoreOp.isListedMode = true) := by
  decide

/-- C17, amended: every operation `Apply` issues is of one of five kinds, the four listed
modes (update-one with upsert, update-many, delete-one, delete-many) or an update-one
without upsert; the latter is what a change with selector and payload and none of the
flags Remove, Upsert, SelectAll gives, and an update-many always has upsert enabled. -/
theorem Apply_five_kinds (m : BulkChange) :
    m.Apply.all (fun op => op.isListedMode || op.isPlainUpdateOne) = true ∧
      (∀ sel upd, BulkChange.Apply ⟨some sel, some upd, false, false, false⟩
        = [.UpdateOne sel upd false]) ∧
      (∀ sel upd, .UpdateMany sel upd false ∉ m.Apply) := by
  refine ⟨?_, fun sel upd => by simp [BulkChange.Apply], ?_⟩
  · unfold BulkChange.Apply
    cases m.Selector <;> cases m.Update <;> cases m.Upsert <;> cases m.Remove <;>
      cases m.SelectAll <;> simp [StoreOp.isListedMode, StoreOp.isPlainUpdateOne]
  · intro sel upd
    unfold BulkChange.Apply
    cases m.Selector <;> cases m.Update <;> cases m.Upsert <;> cases m.Remove <;>
      cases m.SelectAll <;> simp

/-- C18: `Size` returns as size the length of the serialised selector plus the length of
the serialised payload, a nil field counting zero; the size is the same for every
incoming buffer, and the returned buffer has length zero. -/
theorem Size_is_sum_of_lengths (marshal : Value → List Nat) (m : BulkChange)
    (buffer : List Nat) :
    (m.Size marshal buffer).2 = marshalLen marshal m.Selector + marshalLen marshal m.Update ∧
      (∀ other : List Nat, (m.Size marshal other).2 = (m.Size marshal buffer).2) ∧
      (m.Size marshal buffer).1.length = 0 ∧
      (m.Selector = none → m.Update = none → (m.Size marshal buffer).2 = 0) := by
  have h : ∀ b, (m.Size marshal b).2 = marshalLen marshal m.Selector + marshalLen marshal m.Update := by
    intro b
    unfold BulkChange.Size marshalLen
    cases m.Selector <;> cases m.Update <;> simp
  refine ⟨h buffer, fun other => by rw [h other, h buffer], ?_, ?_⟩
  · unfold BulkChange.Size
    cases m.Selector <;> cases m.Update <;> simp
  · intro h1 h2
    rw [h buffer, h1, h2]
    rfl

/-! ## Store gateway -/

theorem CollectionExists_false_of_not_mem (d : DB) (table : String) (names : List String)
    (hlist : d.Client.ListCollectionNames d.selected = .ok names) (habsent : table ∉ names) :
    d.CollectionExists table = (false, [.listCollectionNames d.selected]) := by
  unfold DB.CollectionExists
  rw [hlist]
  simp only [Prod.mk.injEq, and_true]
  rw [List.any_eq_false]
  intro x hx
  simp only [beq_iff_eq]
  intro e
  exact habsent (e ▸ hx)

/-- C19: for a source collection that is not among the collections of the active
database, `AggregateCollection` returns no cursor together with an error, and executes no
pipeline. -/
theorem AggregateCollection_missing (d : DB) (sourceCollection : String) (pipeline : List Doc)
    (names : List String)
    (hlist : d.Client.ListCollectionNames d.selected = .ok names)
    (habsent : sourceCollection ∉ names) :
    (d.AggregateCollection sourceCollection pipeline).1 = (none, some "Collection doesn't exist") ∧
      noAggregate (d.AggregateCollection sourceCollection pipeline).2 = true := by
  unfold DB.AggregateCollection
  rw [CollectionExists_false_of_not_mem d sourceCollection names hlist habsent]
  simp [noAggregate]

/-- Witness of C19: the database holds `conn` only and `host` is aggregated. -/
theorem AggregateCollection_missing_witness :
    (DB.AggregateCollection ⟨clientWith ["conn"], "dataset"⟩ "host" []).1
        = (none, some "Collection doesn't exist") ∧
      noAggregate (DB.AggregateCollection ⟨clientWith ["conn"], "dataset"⟩ "host" []).2 = true :=
  AggregateCollection_missing ⟨clientWith ["conn"], "dataset"⟩ "host" [] ["conn"] rfl
    (by decide)

/-- C20, counterexample: the run in which the collection is absent and the run in which
the lookup of the collection names fails do not return different errors. -/
theorem distinct_not_found_counterexample :
    ¬ ((DB.AggregateCollection ⟨clientWith ["conn"], "dataset"⟩ "host" []).1.2 ≠
        (DB.AggregateCollection ⟨clientDown, "dataset"⟩ "host" []).1.2) := by
  decide

/-- C20, amended: the error `AggregateCollection` returns for a missing source collection
is the plain error "Collection doesn't exist", and the very same outcome (no cursor, that
error, no pipeline executed) is returned when the lookup of the collection names fails;
the two runs differ only in the log, where the failed lookup is recorded as an error
before the warning. -/
theorem not_found_same_as_lookup_failure (absent failed : DB) (sourceCollection : String)
    (pipeline : List Doc) (names : List String) (err : String)
    (hlist : absent.Client.ListCollectionNames absent.selected = .ok names)
    (habsent : sourceCollection ∉ names)
    (hfail : failed.Client.ListCollectionNames failed.selected = .error err) :
    (absent.AggregateCollection sourceCollection pipeline).1
        = (none, some "Collection doesn't exist") ∧
      (failed.AggregateCollection sourceCollection pipeline).1
        = (absent.AggregateCollection sourceCollection pipeline).1 ∧
      noAggregate (failed.AggregateCollection sourceCollection pipeline).2 = true ∧
      (absent.AggregateCollection sourceCollection pipeline).2 =
        [.listCollectionNames absent.selected,
         .logWarning ("Failed aggregation: (Source collection: " ++ sourceCollection
            ++ " doesn't exist)")] ∧
      (failed.AggregateCollection sourceCollection pipeline).2 =
        [.listCollectionNames failed.selected,
         .logError "Failed collection name lookup" err,
         .logWarning ("Failed aggregation: (Source collection: " ++ sourceCollection
            ++ " doesn't exist)")] := by
  have h1 : absent.AggregateCollection sourceCollection pipeline =
      ((none, some "Collection doesn't exist"),
        [.listCollectionNames absent.selected,
         .logWarning ("Failed aggregation: (Source collection: " ++ sourceCollection
            ++ " doesn't exist)")]) := by
    unfold DB.AggregateCollection
    rw [CollectionExists_false_of_not_mem absent sourceCollection names hlist habsent]
    simp
  have h2 : failed.AggregateCollection sourceCollection pipeline =
      ((none, some "Collection doesn't exist"),
        [.listCollectionNames failed.selected,
         .logError "Failed collection name lookup" err,
         .logWarning ("Failed aggregation: (Source collection: " ++ sourceCollection
            ++ " doesn't exist)")]) := by
    unfold DB.AggregateCollection DB.CollectionExists
    rw [hfail]
    simp
  rw [h1, h2]
  exact ⟨rfl, rfl, by simp [noAggregate], rfl, rfl⟩

/-- Witness of C20, amended: an absent collection against a failed lookup. -/
theorem not_found_same_as_lookup_failure_witness :
    (DB.AggregateCollection ⟨clientDown, "dataset"⟩ "host" []).1
      = (DB.AggregateCollection ⟨clientWith ["conn"], "dataset"⟩ "host" []).1 :=
  (not_found_same_as_lookup_failure ⟨clientWith ["conn"], "dataset"⟩ ⟨clientDown, "dataset"⟩
    "host" [] ["conn"] "server selection timeout" rfl (by decide) rfl).2.1


/-! ## Chunk remover -/

theorem cidRemoverStep_issued (cid : Int)
    (answer : List RemoverEvent → String → StoreOp → OpResult) (log : List RemoverEvent)
    (data : String) :
    issuedOps (cidRemoverStep cid answer log data) =
      issuedOps log ++ [(data, deleteWholeOp cid), (data, pullChunkOp cid)] := by
  have happ : ∀ a b : List RemoverEvent, issuedOps (a ++ b) = issuedOps a ++ issuedOps b := by
    intro a b
    induction a with
    | nil => rfl
    | cons e rest ih => cases e <;> simp [issuedOps, ih]
  unfold cidRemoverStep
  simp only []
  split_ifs <;> simp [happ, issuedOps]

theorem datEntries_pull (c : Int) (d : Doc) :
    datEntries (if matchesDatCid c d then pullDat c d else d) =
        (datEntries d).filter (fun e => !matchesCid c e) ∧
      ∀ k, k ≠ "dat" → Doc.get (if matchesDatCid c d then pullDat c d else d) k = d.get k := by
  have hself : matchesDatCid c d = false →
      (datEntries d).filter (fun e => !matchesCid c e) = datEntries d := by
    intro h
    rw [List.filter_eq_self]
    intro e he
    unfold matchesDatCid at h
    rw [List.any_eq_false] at h
    simpa using h e he
  by_cases hm : matchesDatCid c d = true
  · simp only [hm, if_true]
    unfold pullDat
    cases hg : d.get "dat" with
    | none => simp [datEntries, hg]
    | some v =>
      cases v <;> simp [datEntries, hg]
      rename_i l
      refine ⟨by rw [Doc.get_set_same], ?_⟩
      intro k hk
      exact Doc.get_set_ne _ _ _ _ (Ne.symm hk)
  · have hf : matchesDatCid c d = false := by simpa using hm
    simp only [hf]
    exact ⟨(hself hf).symm, fun _ _ => rfl⟩

/-- C12, counterexample: a collection of one document last written under chunk 2 whose
history also holds an entry of chunk 1.  No document was written exclusively under
chunk 2, yet the step for chunk 2 deletes the document: the collection does not keep
`N - M = 1` documents. -/
theorem chunk_removal_counterexample :
    ¬ (∃ r, execRemoverOps [deleteWholeOp 2, pullChunkOp 2] [mixedHostDoc] = some r ∧
        r.length = [mixedHostDoc].length - [mixedHostDoc].countP (exclusivelyUnder 2)) := by
  rintro ⟨r, hr, hl⟩
  have h : execRemoverOps [deleteWholeOp 2, pullChunkOp 2] [mixedHostDoc] = some [] := rfl
  rw [h] at hr
  cases hr
  revert hl
  decide

/-- C12, amended: for every collection, the step of the chunk remover issues a delete-many
and an update-many whose effect is: the documents whose top-level tag is `c` are deleted,
all of them and no other (`M` documents, which are the documents written exclusively
under `c` when no document tagged `c` holds an entry of another chunk); from every
remaining document exactly the `dat` entries tagged `c` are removed, the other entries
stay, unchanged and in their order, and so does every other field. -/
theorem chunk_removal (cid : Int) (answer : List RemoverEvent → String → StoreOp → OpResult)
    (data : String) (coll : List Doc) :
    issuedOps (startCIDRemover cid answer [data]) =
        [(data, deleteWholeOp cid), (data, pullChunkOp cid)] ∧
      execRemoverOps [deleteWholeOp cid, pullChunkOp cid] coll =
        some ((coll.filter (fun d => !matchesCid cid d)).map
          (fun d => if matchesDatCid cid d then pullDat cid d else d)) ∧
      (coll.filter (fun d => !matchesCid cid d)).length + coll.countP (matchesCid cid)
        = coll.length ∧
      (∀ d, datEntries (if matchesDatCid cid d then pullDat cid d else d) =
            (datEntries d).filter (fun e => !matchesCid cid e) ∧
          ∀ k, k ≠ "dat" →
            Doc.get (if matchesDatCid cid d then pullDat cid d else d) k = d.get k) ∧
      ((∀ d, d ∈ coll → matchesCid cid d = true → exclusivelyUnder cid d = true) →
        coll.countP (matchesCid cid) = coll.countP (exclusivelyUnder cid)) := by
  refine ⟨?_, rfl, ?_, fun d => datEntries_pull cid d, ?_⟩
  · simp only [startCIDRemover, List.foldl_cons, List.foldl_nil]
    rw [cidRemoverStep_issued]
    rfl
  · rw [← List.countP_eq_length_filter]
    have := List.length_eq_countP_add_countP (fun d => !matchesCid cid d) coll
    simp only [Bool.not_not, Bool.not_eq_true'] at this
    rw [this]
    congr 1
    exact List.countP_congr (by simp)
  · intro h
    apply List.countP_congr
    intro d hd
    constructor
    · exact h d hd
    · intro he
      unfold exclusivelyUnder at he
      simp only [Bool.and_eq_true] at he
      exact he.1


/-! ## Store gateway: existence of a collection -/

/-- C21: `CollectionExists` returns true exactly when the listing of the collection names
of the active database succeeds and holds the name; when the listing fails it returns
false, having logged the failure, and does not raise (it is a total function). -/
theorem CollectionExists_true_iff (d : DB) (table : String) :
    ((d.CollectionExists table).1 = true ↔
        ∃ names, d.Client.ListCollectionNames d.selected = .ok names ∧ table ∈ names) ∧
      (∀ err, d.Client.ListCollectionNames d.selected = .error err →
        d.CollectionExists table =
          (false, [.listCollectionNames d.selected,
                   .logError "Failed collection name lookup" err])) := by
  unfold DB.CollectionExists
  cases h : d.Client.ListCollectionNames d.selected with
  | error e => simp
  | ok names =>
    simp only [List.any_eq_true, beq_iff_eq, Except.ok.injEq, exists_eq_left', reduceCtorEq,
      false_implies, implies_true, and_true]
    constructor
    · rintro ⟨x, hx, rfl⟩; exact hx
    · intro hx; exact ⟨table, hx, rfl⟩

/-! ## Thresholds -/

/-- C23: a writer built by `NewBulkWriter` has `maxCount = 500` and
`maxSize = 15,000,000`, which is below 16,000,000 and below 16,777,216. -/
theorem NewBulkWriter_thresholds :
    NewBulkWriter.maxBulkCount = 500 ∧ NewBulkWriter.maxBulkSize = 15000000 ∧
      NewBulkWriter.maxBulkSize < 16000000 ∧ NewBulkWriter.maxBulkSize < 16777216 := by
  decide

/-! ## Hostname worker -/

theorem mainQuery_WF (datum : HostnameInput) (chunk : Int) : (mainQuery datum chunk).WF := by
  simp [Doc.WF, Doc.keys, mainQuery]

/-- The merge of the two updates of a hostname worker. -/
theorem merge_hostname_updates (datum : HostnameInput) (chunk : Int)
    (count : Int × Option String) :
    MergeBSONMaps [mainQuery datum chunk, (blQuery count).1] =
      .ok [("$set", .doc [("cid", .int chunk), ("blacklisted", .bool (decide (count.1 > 0)))]),
           ("$push", .doc [("dat", .doc [("$each", .docs [[
              ("ips", datum.ResolvedIPs),
              ("src_ips", datum.ClientIPs),
              ("cid", .int chunk)]])])])] := by
  have hset : MergeBSONMaps [[("cid", .int chunk)],
      [("blacklisted", .bool (decide (count.1 > 0)))]] =
      .ok [("cid", .int chunk), ("blacklisted", .bool (decide (count.1 > 0)))] := rfl
  rw [MergeBSONMaps_pair _ _ (mainQuery_WF datum chunk)]
  simp only [blQuery, mainQuery, mergeMap, mergeKey, Doc.get, if_true, hset, Doc.set]


/-- C24: for every hostname record, chunk and answer of the blacklist lookup, merging
`mainQuery` with the update of `blQuery` returns a document (no panic) whose keys are
`$set` and `$push`, whose `$set` holds exactly `cid` = chunk and `blacklisted` = the
flag, and whose `$push` is that of `mainQuery`. -/
theorem hostname_merge_never_conflicts (datum : HostnameInput) (chunk : Int)
    (count : Int × Option String) :
    ∃ total, MergeBSONMaps [mainQuery datum chunk, (blQuery count).1] = .ok total ∧
      Doc.keys total = ["$set", "$push"] ∧
      Doc.get total "$set" =
        some (.doc [("cid", .int chunk), ("blacklisted", .bool (decide (count.1 > 0)))]) ∧
      Doc.get total "$push" = Doc.get (mainQuery datum chunk) "$push" ∧
      (∃ pushed, Doc.get total "$push" = some pushed) := by
  refine ⟨_, merge_hostname_updates datum chunk count, rfl, rfl, rfl, _, rfl⟩

/-- C29: a record whose host is empty or ends with "in-addr.arpa" makes the hostname
worker forward nothing; every other record makes it forward exactly one ChangeSet, which
holds exactly one change, for the hostnames destination, with selector `{host: Host}`,
Upsert set, Remove and SelectAll unset. -/
theorem analyzeHostname_forwards (chunk : Int) (hostnamesTable : String)
    (count : HostnameInput → Int × Option String) (datum : HostnameInput) :
    ((datum.Host = "" ∨ hasSuffix datum.Host "in-addr.arpa" = true) →
        (analyzeHostname chunk hostnamesTable count datum).map AnalyzerStep.forwarded
          = some []) ∧
      (¬ (datum.Host = "" ∨ hasSuffix datum.Host "in-addr.arpa" = true) →
        ∃ total,
          MergeBSONMaps [mainQuery datum chunk, (blQuery (count datum)).1] = .ok total ∧
          (analyzeHostname chunk hostnamesTable count datum).map AnalyzerStep.forwarded
            = some [[(hostnamesTable,
                [⟨some (.doc [("host", .str datum.Host)]), some (.doc total),
                  true, false, false⟩])]]) := by
  constructor
  · intro h
    simp [analyzeHostname, h]
  · intro h
    refine ⟨[("$set", .doc [("cid", .int chunk),
          ("blacklisted", .bool (decide ((count datum).1 > 0)))]),
        ("$push", .doc [("dat", .doc [("$each", .docs [[
          ("ips", datum.ResolvedIPs), ("src_ips", datum.ClientIPs),
          ("cid", .int chunk)]])])])], merge_hostname_updates datum chunk (count datum), ?_⟩
    simp only [analyzeHostname, h, if_false, merge_hostname_updates]
    rfl

/-! ## Chunk tags of the pushed history elements -/

theorem maxBeaconUpdate_tags (ans : SummaryAnswers) (hostSelector : Doc) (chunk : Int)
    (sel query : Doc) (h : maxBeaconUpdate ans hostSelector chunk = .returned sel query) :
    tagsWithChunk chunk query := by
  unfold maxBeaconUpdate at h
  split at h
  · cases h
  · split at h
    · cases h
    · split at h
      · cases h
      · split at h
        · cases h
        · split at h
          · cases h; right; exact ⟨rfl, rfl⟩
          · cases h; left; exact ⟨_, rfl, rfl⟩

theorem maxProxyBeaconUpdate_tags (ans : SummaryAnswers) (hostSelector : Doc) (chunk : Int)
    (sel query : Doc) (h : maxProxyBeaconUpdate ans hostSelector chunk = .returned sel query) :
    tagsWithChunk chunk query := by
  unfold maxProxyBeaconUpdate at h
  split at h
  · cases h
  · split at h
    · cases h
    · split at h
      · cases h
      · split at h
        · cases h
        · split at h
          · cases h; right; exact ⟨rfl, rfl⟩
          · cases h; left; exact ⟨_, rfl, rfl⟩

/-- C22: the element `mainQuery` pushes onto `dat` carries `cid` = chunk; whenever
`maxBeaconUpdate` or `maxProxyBeaconUpdate` returns a query, the query either pushes one
element carrying `cid` = chunk (insert branch) or sets `dat.$.cid` to the chunk
(positional branch); both branches are taken, the insert branch when no entry exists. -/
theorem pushed_elements_carry_chunk (datum : HostnameInput) (ans : SummaryAnswers)
    (hostSelector : Doc) (chunk : Int) :
    (∃ e, pushedElements (mainQuery datum chunk) = [e] ∧
        Doc.get e "cid" = some (.int chunk)) ∧
      (∀ sel query, maxBeaconUpdate ans hostSelector chunk = .returned sel query →
        tagsWithChunk chunk query) ∧
      (∀ sel query, maxProxyBeaconUpdate ans hostSelector chunk = .returned sel query →
        tagsWithChunk chunk query) ∧
      (∃ sel query e, maxBeaconUpdate (sampleAnswers 0) [("ip", .str "10.0.0.1")] chunk
          = .returned sel query ∧ pushedElements query = [e] ∧
          Doc.get e "cid" = some (.int chunk)) ∧
      (∃ sel query, maxBeaconUpdate (sampleAnswers 2) [("ip", .str "10.0.0.1")] chunk
          = .returned sel query ∧ positionalCid query = some (.int chunk)) ∧
      (∃ sel query e, maxProxyBeaconUpdate (sampleAnswers 0) [("ip", .str "10.0.0.1")] chunk
          = .returned sel query ∧ pushedElements query = [e] ∧
          Doc.get e "cid" = some (.int chunk)) ∧
      (∃ sel query, maxProxyBeaconUpdate (sampleAnswers 2) [("ip", .str "10.0.0.1")] chunk
          = .returned sel query ∧ positionalCid query = some (.int chunk)) := by
  refine ⟨⟨_, rfl, rfl⟩,
    fun sel query h => maxBeaconUpdate_tags ans hostSelector chunk sel query h,
    fun sel query h => maxProxyBeaconUpdate_tags ans hostSelector chunk sel query h,
    ⟨_, _, _, rfl, rfl, rfl⟩, ⟨_, _, rfl, rfl⟩, ⟨_, _, _, rfl, rfl, rfl⟩, ⟨_, _, rfl, rfl⟩⟩


/-! ## Chunk remover: every name gets both operations -/

theorem issuedOps_startCIDRemover (cid : Int)
    (answer : List RemoverEvent → String → StoreOp → OpResult) (names : List String) :
    ∀ log : List RemoverEvent,
      issuedOps (names.foldl (cidRemoverStep cid answer) log) =
        issuedOps log ++
          names.flatMap (fun data => [(data, deleteWholeOp cid), (data, pullChunkOp cid)]) := by
  induction names with
  | nil => intro log; simp
  | cons data rest ih =>
    intro log
    rw [List.foldl_cons, ih, cidRemoverStep_issued]
    simp

/-- C25: for every sequence of collection names and whatever the store answers to any
operation (error, zero counts), the remover issues for each name, in arrival order, one
delete-many with filter `{cid: c}` followed by one update-many with filter `{dat.cid: c}`
and update `{$pull: {dat: {cid: c}}}`, and nothing else. -/
theorem remover_issues_both_for_each_name (cid : Int)
    (answer : List RemoverEvent → String → StoreOp → OpResult) (names : List String) :
    issuedOps (startCIDRemover cid answer names) =
        names.flatMap (fun data =>
          [(data, StoreOp.DeleteMany (.doc [("cid", .int cid)])),
           (data, StoreOp.UpdateMany (.doc [("dat.cid", .int cid)])
              (.doc [("$pull", .doc [("dat", .doc [("cid", .int cid)])])]) false)]) ∧
      (issuedOps (startCIDRemover cid answer names)).length = 2 * names.length := by
  have h := issuedOps_startCIDRemover cid answer names []
  simp only [issuedOps, List.nil_append] at h
  unfold startCIDRemover
  rw [h]
  refine ⟨rfl, ?_⟩
  induction names with
  | nil => rfl
  | cons data rest ih =>
    simp only [List.flatMap_cons, List.length_append, List.length_cons, List.length_nil]
    have := ih (issuedOps_startCIDRemover cid answer rest [])
    omega

/-! ## Precedence of Apply -/

/-- C26: for a change with a selector, `Apply` issues at most one operation: delete-many
for Remove with SelectAll; delete-one for Remove alone, whatever the payload; otherwise,
with a payload, update-one with upsert for Upsert (also when SelectAll is set),
update-many with upsert enabled for SelectAll, update-one without upsert for neither; and
nothing without a payload. -/
theorem Apply_precedence (sel : Value) (payload : Option Value) (upd : Value)
    (upsertFlag removeFlag selectAllFlag : Bool) :
    (BulkChange.Apply ⟨some sel, payload, upsertFlag, removeFlag, selectAllFlag⟩).length ≤ 1 ∧
      BulkChange.Apply ⟨some sel, payload, upsertFlag, true, true⟩ = [.DeleteMany sel] ∧
      BulkChange.Apply ⟨some sel, payload, upsertFlag, true, false⟩ = [.DeleteOne sel] ∧
      BulkChange.Apply ⟨some sel, some upd, true, false, selectAllFlag⟩
        = [.UpdateOne sel upd true] ∧
      BulkChange.Apply ⟨some sel, some upd, false, false, true⟩ = [.UpdateMany sel upd true] ∧
      BulkChange.Apply ⟨some sel, some upd, false, false, false⟩ = [.UpdateOne sel upd false] ∧
      BulkChange.Apply ⟨some sel, none, upsertFlag, false, selectAllFlag⟩ = [] := by
  refine ⟨?_, ?_, ?_, ?_, ?_, ?_, ?_⟩
  · cases payload <;> cases upsertFlag <;> cases removeFlag <;> cases selectAllFlag <;>
      simp [BulkChange.Apply]
  all_goals simp [BulkChange.Apply]

/-! ## A change without selector is counted -/

/-- C27: a change with a nil selector issues no operation, yet the worker counts it like
any other change: the reset test is the same, and the counters of its destination become
`(count + 1, size + s)`, or `(1, s)` when the test resets them, with `s` the length of the
serialised payload. -/
theorem nil_selector_is_counted (w : MgoBulkWriter) (marshal : Value → List Nat)
    (tgtColl : String) (st : WorkerState) (payload : Option Value)
    (upsertFlag removeFlag selectAllFlag : Bool) :
    (processChange w marshal tgtColl st
        ⟨none, payload, upsertFlag, removeFlag, selectAllFlag⟩).store = st.store ∧
      ((processChange w marshal tgtColl st
          ⟨none, payload, upsertFlag, removeFlag, selectAllFlag⟩).bulkBufferLengths tgtColl,
        (processChange w marshal tgtColl st
          ⟨none, payload, upsertFlag, removeFlag, selectAllFlag⟩).bulkBufferSizes tgtColl) =
        (if st.bulkBufferLengths tgtColl ≥ w.maxBulkCount ∨
            st.bulkBufferSizes tgtColl + marshalLen marshal payload ≥ w.maxBulkSize
          then (1, marshalLen marshal payload)
          else (st.bulkBufferLengths tgtColl + 1,
            st.bulkBufferSizes tgtColl + marshalLen marshal payload)) ∧
      (processChange w marshal tgtColl st
        ⟨none, payload, upsertFlag, removeFlag, selectAllFlag⟩).flushes =
        (if st.bulkBufferLengths tgtColl ≥ w.maxBulkCount ∨
            st.bulkBufferSizes tgtColl + marshalLen marshal payload ≥ w.maxBulkSize
          then st.flushes ++ [tgtColl] else st.flushes) := by
  have hs : (BulkChange.Size marshal ⟨none, payload, upsertFlag, removeFlag, selectAllFlag⟩ []).2
      = marshalLen marshal payload := by
    unfold BulkChange.Size marshalLen
    cases payload <;> simp
  refine ⟨?_, ?_, ?_⟩
  · rw [(processChange_store w marshal tgtColl st _).1]
    simp [BulkChange.Apply]
  · rw [processChange_lengths, processChange_sizes, hs]
    simp only [if_true]
    split_ifs <;> rfl
  · have hb := BulkChange.Size_snd marshal
      ⟨none, payload, upsertFlag, removeFlag, selectAllFlag⟩ st.sizeBuffer
    simp only [processChange, hb, hs]
    split_ifs <;> simp [resetCounters]


/-! ## Linking the SNI inputs -/

theorem mapGet_mapSet_same {β : Type} (m : List (String × β)) (k : String) (v : β) :
    mapGet (mapSet m k v) k = some v := by
  induction m with
  | nil => simp [mapSet, mapGet]
  | cons p rest ih =>
    obtain ⟨k', v'⟩ := p
    by_cases h : k' = k <;> simp [mapSet, mapGet, h, ih]

theorem mapGet_mapSet_ne {β : Type} (m : List (String × β)) (k j : String) (v : β)
    (h : k ≠ j) : mapGet (mapSet m k v) j = mapGet m j := by
  induction m with
  | nil => simp [mapSet, mapGet, h]
  | cons p rest ih =>
    obtain ⟨k', v'⟩ := p
    by_cases h1 : k' = k
    · subst h1; simp [mapSet, mapGet, h]
    · by_cases h2 : k' = j
      · subst h2; simp [mapSet, mapGet, h1]
      · simp [mapSet, mapGet, h1, h2, ih]

theorem mapGet_isSome_iff {β : Type} (m : List (String × β)) (k : String) :
    (mapGet m k).isSome = true ↔ k ∈ mapKeys m := by
  induction m with
  | nil => simp [mapGet, mapKeys]
  | cons p rest ih =>
    obtain ⟨k', v'⟩ := p
    by_cases h : k' = k
    · simp [mapGet, mapKeys, h]
    · have h' : ¬ k = k' := fun e => h e.symm
      simp only [mapGet, h, if_false, ih, mapKeys, List.map_cons, List.mem_cons, h', false_or]

theorem mapKeys_mapSet {β : Type} (m : List (String × β)) (k : String) (v : β) :
    mapKeys (mapSet m k v) = if k ∈ mapKeys m then mapKeys m else mapKeys m ++ [k] := by
  induction m with
  | nil => simp [mapSet, mapKeys]
  | cons p rest ih =>
    obtain ⟨k', v'⟩ := p
    by_cases h : k' = k
    · simp [mapSet, mapKeys, h]
    · have h' : ¬ k = k' := fun e => h e.symm
      simp only [mapKeys] at ih
      simp only [mapSet, h, if_false, mapKeys, List.map_cons, ih, List.mem_cons, h', false_or]
      split_ifs <;> simp

theorem mapKeys_mapSet_nodup {β : Type} (m : List (String × β)) (k : String) (v : β)
    (h : (mapKeys m).Nodup) : (mapKeys (mapSet m k v)).Nodup := by
  rw [mapKeys_mapSet]
  split_ifs with hk
  · exact h
  · exact List.Nodup.append h (List.nodup_singleton _) (by simpa using hk)

theorem mem_mapKeys_mapSet {β : Type} (m : List (String × β)) (k j : String) (v : β) :
    j ∈ mapKeys (mapSet m k v) ↔ j ∈ mapKeys m ∨ j = k := by
  rw [mapKeys_mapSet]
  split_ifs with hk
  · constructor
    · intro h; exact Or.inl h
    · rintro (h | h)
      · exact h
      · exact h ▸ hk
  · simp

theorem zeekRecordsFor_eq (zeekUIDMap : List (String × ZeekUIDRecord)) (uids : List String) :
    zeekRecordsFor zeekUIDMap uids = uids.filterMap (mapGet zeekUIDMap) := by
  have h : ∀ (l : List String) (acc : List ZeekUIDRecord),
      l.foldl (fun records zeekUID =>
          match mapGet zeekUIDMap zeekUID with
          | some zeekRecord => records ++ [zeekRecord]
          | none => records) acc
        = acc ++ l.filterMap (mapGet zeekUIDMap) := by
    intro l
    induction l with
    | nil => intro acc; simp
    | cons u rest ih =>
      intro acc
      rw [List.foldl_cons, ih]
      cases hu : mapGet zeekUIDMap u <;> simp [List.filterMap_cons, hu]
  simpa [zeekRecordsFor] using h uids []


theorem mapGet_ensureEntry (m : List (String × linkedInput)) (k j : String) :
    mapGet (ensureEntry m k) j =
      if j = k then some ((mapGet m k).getD linkedInput.zero) else mapGet m j := by
  unfold ensureEntry
  cases h : mapGet m k with
  | some e =>
    by_cases hj : j = k
    · subst hj; simp [h]
    · simp [hj]
  | none =>
    by_cases hj : j = k
    · subst hj; simp [mapGet_mapSet_same]
    · simp only [hj, if_false]
      exact mapGet_mapSet_ne _ _ _ _ (fun e => hj e.symm)

theorem mapKeys_ensureEntry (m : List (String × linkedInput)) (k : String)
    (h : (mapKeys m).Nodup) :
    (mapKeys (ensureEntry m k)).Nodup ∧
      ∀ j, j ∈ mapKeys (ensureEntry m k) ↔ j ∈ mapKeys m ∨ j = k := by
  unfold ensureEntry
  cases hk : mapGet m k with
  | some e =>
    refine ⟨h, fun j => ⟨fun hj => Or.inl hj, ?_⟩⟩
    rintro (hj | hj)
    · exact hj
    · subst hj
      exact (mapGet_isSome_iff m j).mp (by simp [hk])
  | none =>
    exact ⟨mapKeys_mapSet_nodup m k _ h, fun j => mem_mapKeys_mapSet m k j _⟩

/-- One iteration of either loop: the entry of `k` is created if missing and then changed
by `f`; every other entry is left alone. -/
theorem mapGet_link (m : List (String × linkedInput)) (k j : String)
    (f : linkedInput → linkedInput) :
    mapGet (mapSet (ensureEntry m k) k
        (f ((mapGet (ensureEntry m k) k).getD linkedInput.zero))) j =
      if j = k then some (f ((mapGet m k).getD linkedInput.zero)) else mapGet m j := by
  by_cases hj : j = k
  · subst hj
    rw [mapGet_mapSet_same, mapGet_ensureEntry]
    simp
  · rw [mapGet_mapSet_ne _ _ _ _ (fun e => hj e.symm), mapGet_ensureEntry]
    simp [hj]

theorem mapKeys_link (m : List (String × linkedInput)) (k : String) (v : linkedInput)
    (h : (mapKeys m).Nodup) :
    (mapKeys (mapSet (ensureEntry m k) k v)).Nodup ∧
      ∀ j, j ∈ mapKeys (mapSet (ensureEntry m k) k v) ↔ j ∈ mapKeys m ∨ j = k := by
  obtain ⟨h1, h2⟩ := mapKeys_ensureEntry m k h
  refine ⟨mapKeys_mapSet_nodup _ k v h1, fun j => ?_⟩
  rw [mem_mapKeys_mapSet, h2]
  tauto

/-- A loop whose body creates the entry of the key if missing and changes it by `f value`:
what the linked map holds afterwards. -/
theorem foldl_link {α : Type} (f : α → linkedInput → linkedInput)
    (step : List (String × linkedInput) → String × α → List (String × linkedInput))
    (hstep : ∀ m entry, step m entry =
      mapSet (ensureEntry m entry.1) entry.1
        (f entry.2 ((mapGet (ensureEntry m entry.1) entry.1).getD linkedInput.zero)))
    (l : List (String × α)) :
    ∀ m : List (String × linkedInput), (mapKeys l).Nodup → (mapKeys m).Nodup →
      (mapKeys (l.foldl step m)).Nodup ∧
      (∀ j, j ∈ mapKeys (l.foldl step m) ↔ j ∈ mapKeys m ∨ j ∈ mapKeys l) ∧
      (∀ j, mapGet (l.foldl step m) j =
        match mapGet l j with
        | some v => some (f v ((mapGet m j).getD linkedInput.zero))
        | none => mapGet m j) := by
  induction l with
  | nil =>
    intro m _ hm
    exact ⟨hm, fun j => by simp [mapKeys], fun j => by simp [mapGet]⟩
  | cons entry rest ih =>
    obtain ⟨k, v⟩ := entry
    intro m hl hm
    simp only [mapKeys, List.map_cons, List.nodup_cons] at hl
    obtain ⟨k1, k2⟩ := mapKeys_link m k
      (f v ((mapGet (ensureEntry m k) k).getD linkedInput.zero)) hm
    have hs := hstep m (k, v)
    simp only at hs
    obtain ⟨i1, i2, i3⟩ := ih (step m (k, v)) hl.2 (by rw [hs]; exact k1)
    rw [List.foldl_cons]
    refine ⟨i1, ?_, ?_⟩
    · intro j
      rw [i2, hs, k2]
      simp only [mapKeys, List.map_cons, List.mem_cons]
      tauto
    · intro j
      rw [i3, hs, mapGet_link]
      by_cases hj : j = k
      · subst hj
        have hnone : mapGet rest j = none := by
          cases hr : mapGet rest j with
          | none => rfl
          | some x =>
            exact absurd ((mapGet_isSome_iff rest j).mp (by simp [hr])) hl.1
        simp [hnone, mapGet]
      · have hj' : ¬ k = j := fun e => hj e.symm
        simp [mapGet, hj, hj']

/-- C28: `linkInputMaps` returns a map whose keys are those of `tlsMap` and `httpMap`; the
entry of a key holds in `TLS` the value of `tlsMap` (nil when absent), in `HTTP` the value
of `httpMap` (nil when absent), and in `TLSZeekRecords` and `HTTPZeekRecords` the records
`zeekUIDMap` holds for the `ZeekUIDs` of that value, in their order, the UIDs it does not
hold being skipped (no record when the value is absent). -/
theorem linkInputMaps_links (tlsMap : List (String × TLSInput))
    (httpMap : List (String × HTTPInput)) (zeekUIDMap : List (String × ZeekUIDRecord))
    (htls : (mapKeys tlsMap).Nodup) (hhttp : (mapKeys httpMap).Nodup) :
    (mapKeys (linkInputMaps tlsMap httpMap zeekUIDMap)).Nodup ∧
      (∀ k, k ∈ mapKeys (linkInputMaps tlsMap httpMap zeekUIDMap) ↔
        k ∈ mapKeys tlsMap ∨ k ∈ mapKeys httpMap) ∧
      (∀ k e, mapGet (linkInputMaps tlsMap httpMap zeekUIDMap) k = some e →
        e.TLS = mapGet tlsMap k ∧ e.HTTP = mapGet httpMap k ∧
        e.TLSZeekRecords =
          ((mapGet tlsMap k).map (fun v => v.ZeekUIDs.filterMap (mapGet zeekUIDMap))).getD [] ∧
        e.HTTPZeekRecords =
          ((mapGet httpMap k).map (fun v => v.ZeekUIDs.filterMap (mapGet zeekUIDMap))).getD []) := by
  obtain ⟨t1, t2, t3⟩ := foldl_link
    (fun (v : TLSInput) cur =>
      { cur with TLS := some v, TLSZeekRecords := zeekRecordsFor zeekUIDMap v.ZeekUIDs })
    (linkTLS zeekUIDMap) (fun _ _ => rfl) tlsMap [] htls (by simp [mapKeys])
  obtain ⟨h1, h2, h3⟩ := foldl_link
    (fun (v : HTTPInput) cur =>
      { cur with HTTP := some v, HTTPZeekRecords := zeekRecordsFor zeekUIDMap v.ZeekUIDs })
    (linkHTTP zeekUIDMap) (fun _ _ => rfl) httpMap
    (tlsMap.foldl (linkTLS zeekUIDMap) []) hhttp t1
  unfold linkInputMaps
  refine ⟨h1, ?_, ?_⟩
  · intro k
    rw [h2, t2]
    simp [mapKeys]
  · intro k e he
    rw [h3, t3] at he
    cases ht : mapGet tlsMap k <;> cases hh : mapGet httpMap k <;>
      simp only [ht, hh, mapGet, Option.getD, Option.some.injEq] at he
    · cases he
    · subst he; simp [linkedInput.zero, zeekRecordsFor_eq]
    · subst he; simp [linkedInput.zero, zeekRecordsFor_eq]
    · subst he; simp [linkedInput.zero, zeekRecordsFor_eq]


/-- Witness of C28: three names over the two maps, one of them in both. -/
theorem linkInputMaps_links_witness :
    (mapKeys (linkInputMaps sampleTLS sampleHTTP sampleZeek)).Nodup ∧
      mapKeys (linkInputMaps sampleTLS sampleHTTP sampleZeek)
        = ["a.example", "b.example", "c.example"] :=
  ⟨(linkInputMaps_links sampleTLS sampleHTTP sampleZeek (by decide) (by decide)).1, by decide⟩

end Rita
